import Mathlib

/-!
# Elliott-wave analyzer: a shallow embedding

This file embeds the core of the Elliott-wave analysis tool in Lean 4:
the zigzag pivot filter and local-extrema fallback (`elliott_wave/utils.py`),
wave-pattern validation and target projection (`elliott_wave/patterns.py`),
wave identification, current-wave detection, prediction, and the backtest
simulator (`elliott_wave/analyzer.py`), and the trade-recommendation
derivation (`main.py`).

Modelling conventions:
* Python floats are modelled as rationals (`ℚ`); every price, threshold and
  metric is exact rational arithmetic.
* A Python division whose denominator may be zero is modelled by the checked
  division `cdiv`, and functions that may hit such a division return
  `Except Unit` (or `Option`): `.error ()` / `none` models the numeric fault
  (`ZeroDivisionError` / NaN propagation).  Divisions that sit behind an
  explicit zero guard in the source use ordinary field division.
* Python list indexing, including its negative-index wraparound, is modelled
  by `pyGet`; an out-of-range access (Python `IndexError`) is an `Except`
  error.
* Timestamps are carried by the source only for reporting; trades and equity
  points are modelled without their `date` field.
* Formatted percent strings (`f"+{x:.2f}%"`) are modelled by the underlying
  signed rational percent value.
-/

/-- Checked division: `none` models Python's division-by-zero fault. -/
def cdiv (a b : ℚ) : Option ℚ :=
  if b = 0 then none else some (a / b)

/-- Python list indexing with negative-index wraparound;
`none` models an `IndexError`. -/
def pyGet (l : List ℚ) (i : ℤ) : Option ℚ :=
  if 0 ≤ i then l.get? i.toNat
  else if 0 ≤ (l.length : ℤ) + i then l.get? ((l.length : ℤ) + i).toNat
  else none

/-- Python `min` over a list (meaningful on nonempty lists). -/
def listMin (l : List ℚ) : ℚ :=
  l.foldl min (l.headD 0)

/-- Python `max` over a list (meaningful on nonempty lists). -/
def listMax (l : List ℚ) : ℚ :=
  l.foldl max (l.headD 0)

/-! ## PivotDetector: the zigzag filter (`utils.zigzag_filter`) -/

/-- The running state of `zigzag_filter`'s loop: trend direction flag,
running extreme value and index, and the turning points emitted so far. -/
structure ZigzagState where
  upTrend : Bool
  lastExtreme : ℚ
  lastExtremeIdx : ℕ
  turningPoints : List ℕ
deriving Repr, DecidableEq

/-- One iteration of `zigzag_filter`'s `for` loop at index `i`, price `p`. -/
def zigzagStep (threshold : ℚ) (s : ZigzagState) (i : ℕ) (p : ℚ) : ZigzagState :=
  if s.upTrend then
    if p > s.lastExtreme then
      { s with lastExtreme := p, lastExtremeIdx := i }
    else if p < s.lastExtreme * (1 - threshold) then
      { upTrend := false, lastExtreme := p, lastExtremeIdx := i,
        turningPoints := s.turningPoints ++ [s.lastExtremeIdx] }
    else s
  else
    if p < s.lastExtreme then
      { s with lastExtreme := p, lastExtremeIdx := i }
    else if p > s.lastExtreme * (1 + threshold) then
      { upTrend := true, lastExtreme := p, lastExtremeIdx := i,
        turningPoints := s.turningPoints ++ [s.lastExtremeIdx] }
    else s

/-- `zigzag_filter`'s loop over the prices from index `i` on. -/
def zigzagLoop (threshold : ℚ) : ZigzagState → ℕ → List ℚ → ZigzagState
  | s, _, [] => s
  | s, i, p :: ps => zigzagLoop threshold (zigzagStep threshold s i p) (i + 1) ps

/-- `zigzag_filter(prices, threshold)` on a nonempty price list
`p0 :: rest`: start in an uptrend with extreme `p0` at index `0` and
turning-point list `[0]`, run the loop, and append the final running-extreme
index if it is not already the last turning point. -/
def zigzagFilterNE (p0 : ℚ) (rest : List ℚ) (threshold : ℚ) : List ℕ :=
  let s := zigzagLoop threshold ⟨true, p0, 0, [0]⟩ 1 rest
  if s.lastExtremeIdx ≠ s.turningPoints.getLastD 0 then
    s.turningPoints ++ [s.lastExtremeIdx]
  else
    s.turningPoints

/-- `zigzag_filter` as a function on lists; the Python code faults on an
empty input (`prices[0]`), which no claim exercises. -/
def zigzagFilter (prices : List ℚ) (threshold : ℚ) : List ℕ :=
  match prices with
  | [] => []
  | p :: ps => zigzagFilterNE p ps threshold

/-- `zigzag_filter` in the error monad: an empty price list is the
`IndexError` on `prices[0]`. -/
def zigzagE (prices : List ℚ) (threshold : ℚ) : Except Unit (List ℕ) :=
  match prices with
  | [] => .error ()
  | p :: ps => .ok (zigzagFilterNE p ps threshold)

/-! ## Local-extrema fallback (`utils.find_local_extrema`)

`scipy.signal.argrelextrema(prices, comparator, order=window)` with the
default `mode='clip'`: index `i` is selected iff `comparator(prices[i],
prices[clip(i±k)])` holds for every `1 ≤ k ≤ order`, where out-of-range
neighbour indices clip to the ends (so the endpoints are never selected). -/

/-- Strict local maximum over a symmetric window, with clipped boundaries. -/
def isLocalMax (l : List ℚ) (window : ℕ) (i : ℕ) : Bool :=
  (List.range window).all fun k0 =>
    let k := k0 + 1
    decide (l.getD (min (i + k) (l.length - 1)) 0 < l.getD i 0) &&
    decide (l.getD (i - k) 0 < l.getD i 0)

/-- Strict local minimum over a symmetric window, with clipped boundaries. -/
def isLocalMin (l : List ℚ) (window : ℕ) (i : ℕ) : Bool :=
  (List.range window).all fun k0 =>
    let k := k0 + 1
    decide (l.getD i 0 < l.getD (min (i + k) (l.length - 1)) 0) &&
    decide (l.getD i 0 < l.getD (i - k) 0)

/-- `find_local_extrema` followed by `sorted(list(maxima) + list(minima))`,
as used by `ElliottWaveAnalyzer.analyze`'s fallback branch. -/
def localExtremaPivots (l : List ℚ) (window : ℕ) : List ℕ :=
  (((List.range l.length).filter (isLocalMax l window)) ++
    ((List.range l.length).filter (isLocalMin l window))).mergeSort (· ≤ ·)

/-! ## WavePattern (`patterns.WavePattern`) -/

/-- A wave pattern: kind tag, ordered `(index, price)` points (indices are
integers because `find_current_wave` can produce negative absolute indices
on short series), and the validity flag cached at construction. -/
structure WavePattern where
  pattern_type : String
  points : List (ℤ × ℚ)
  is_valid : Bool
deriving Repr, DecidableEq

/-- `WavePattern.validate_impulse_wave`. -/
def validateImpulseWave (points : List (ℤ × ℚ)) : Bool :=
  if points.length < 6 then false
  else
    let prices := points.map (·.2)
    let p0 := prices.getD 0 0
    let p2 := prices.getD 2 0
    let p4 := prices.getD 4 0
    let p5 := prices.getD 5 0
    if p2 ≤ p0 then false
    else
      let wave1 := |p2 - p0|
      let wave3 := |p4 - p2|
      let wave5 := |p5 - p4|
      if ¬(wave3 > wave1 ∨ wave3 > wave5) then false
      else if wave3 < min wave1 wave5 then false
      else if (p0 < p2 ∧ p4 < p2) ∨ (p0 > p2 ∧ p4 > p2) then
        if (p0 < p2 ∧ p4 < p0) ∨ (p0 > p2 ∧ p4 > p0) then false else true
      else true

/-- `WavePattern.validate_corrective_wave`: only the ≥ 4 length gate. -/
def validateCorrectiveWave (points : List (ℤ × ℚ)) : Bool :=
  decide (4 ≤ points.length)

/-- `WavePattern.validate_diagonal_wave`: only the ≥ 6 length gate. -/
def validateDiagonalWave (points : List (ℤ × ℚ)) : Bool :=
  decide (6 ≤ points.length)

/-- `WavePattern.validate_pattern`: dispatch on the kind tag; unknown kinds
validate trivially. -/
def validatePattern (pattern_type : String) (points : List (ℤ × ℚ)) : Bool :=
  if pattern_type = "impulse" then validateImpulseWave points
  else if pattern_type = "corrective" then validateCorrectiveWave points
  else if pattern_type = "diagonal" then validateDiagonalWave points
  else true

/-- `WavePattern.__init__`: validity is computed once and cached. -/
def mkWavePattern (pattern_type : String) (points : List (ℤ × ℚ)) : WavePattern :=
  ⟨pattern_type, points, validatePattern pattern_type points⟩

/-- `WavePattern.get_next_target`. -/
def WavePattern.getNextTarget (w : WavePattern) : Option (ℚ × ℚ) :=
  if ¬w.is_valid then none
  else
    let prices := w.points.map (·.2)
    if w.pattern_type = "impulse" ∧ 5 ≤ prices.length then
      let waveLength := |prices.getLastD 0 - prices.headD 0|
      let direction : ℚ := if prices.getLastD 0 > prices.headD 0 then 1 else -1
      some (prices.getLastD 0 - direction * (382 / 1000) * waveLength,
            prices.getLastD 0 - direction * (618 / 1000) * waveLength)
    else if w.pattern_type = "corrective" ∧ 3 ≤ prices.length then
      let waveLength := |prices.getLastD 0 - prices.headD 0|
      let direction : ℚ := if prices.getLastD 0 < prices.headD 0 then 1 else -1
      some (prices.getLastD 0 + direction * 1 * waveLength,
            prices.getLastD 0 + direction * (1618 / 1000) * waveLength)
    else none

/-! ## WaveAnalyzer: `analyze` / `_identify_waves` (`analyzer.py`) -/

/-- A record appended to the per-kind wave lists by `_identify_waves`. -/
structure WaveRecord where
  indices : List ℕ
  pattern : WavePattern
  wave_count : ℕ
deriving Repr, DecidableEq

/-- The analyzer's `self.waves` mapping, with one field per kind key. -/
structure Waves where
  impulse : List WaveRecord
  corrective : List WaveRecord
  motive : List WaveRecord
  diagonal : List WaveRecord
deriving Repr, DecidableEq

/-- The fresh `self.waves` set up by `ElliottWaveAnalyzer.__init__`. -/
def emptyWaves : Waves := ⟨[], [], [], []⟩

/-- The `(index, price)` window of length `n` starting at pivot offset `i`,
as built by `_identify_waves`. -/
def pivotWindow (prices : List ℚ) (pivots : List ℕ) (i n : ℕ) : List (ℤ × ℚ) :=
  ((pivots.drop i).take n).map fun (idx : ℕ) => ((idx : ℤ), prices.getD idx 0)

/-- The impulse attempt of one `_identify_waves` iteration: try the
6-point window starting at offset `i` and append it if valid. -/
def impulseTry (prices : List ℚ) (pivots : List ℕ) (i : ℕ) (w : Waves) : Waves :=
  if (mkWavePattern "impulse" (pivotWindow prices pivots i 6)).is_valid then
    { w with impulse := w.impulse ++
        [⟨(pivots.drop i).take 6, mkWavePattern "impulse" (pivotWindow prices pivots i 6),
          w.impulse.length + 1⟩] }
  else w

/-- The corrective attempt of one `_identify_waves` iteration: if
`i ≤ len(pivot_points) - 4`, try the 4-point window starting at offset `i`
and append it if valid. -/
def correctiveTry (prices : List ℚ) (pivots : List ℕ) (i : ℕ) (w : Waves) : Waves :=
  if i ≤ pivots.length - 4 then
    if (mkWavePattern "corrective" (pivotWindow prices pivots i 4)).is_valid then
      { w with corrective := w.corrective ++
          [⟨(pivots.drop i).take 4, mkWavePattern "corrective" (pivotWindow prices pivots i 4),
            w.corrective.length + 1⟩] }
    else w
  else w

/-- One iteration of `_identify_waves`' loop at start offset `i`: the
impulse attempt followed by the corrective attempt. -/
def identifyStep (prices : List ℚ) (pivots : List ℕ) (w : Waves) (i : ℕ) : Waves :=
  correctiveTry prices pivots i (impulseTry prices pivots i w)

/-- `_identify_waves(pivot_points)`: scan all start offsets
`i < len(pivot_points) - 5`, mutating the waves mapping. -/
def identifyWaves (prices : List ℚ) (pivots : List ℕ) (w : Waves) : Waves :=
  (List.range (pivots.length - 5)).foldl (identifyStep prices pivots) w

/-- `ElliottWaveAnalyzer.analyze(zigzag_threshold, window_size)` acting on
the analyzer's current `self.waves` state `w` (which `__init__` sets to
`emptyWaves` but `analyze` itself never resets). -/
def analyzeWaves (prices : List ℚ) (threshold : ℚ) (window : ℕ) (w : Waves) : Waves :=
  let piv := zigzagFilter prices threshold
  let piv := if piv.length < 5 then localExtremaPivots prices window else piv
  identifyWaves prices piv w

/-! ## Current wave and prediction (`find_current_wave`, `predict_next_move`) -/

/-- The dict returned by `find_current_wave`: kind tag, points and the
pattern's projected target. -/
structure CurrentWave where
  type : String
  points : List (ℤ × ℚ)
  next_target : Option (ℚ × ℚ)
deriving Repr, DecidableEq

/-- Build the `(index, price)` point list from absolute pivot indices,
via Python indexing (`self.prices[idx]`); an out-of-range index faults. -/
def buildPoints (prices : List ℚ) : List ℤ → Except Unit (List (ℤ × ℚ))
  | [] => .ok []
  | j :: js =>
    match pyGet prices j with
    | none => .error ()
    | some p =>
      match buildPoints prices js with
      | .error e => .error e
      | .ok rest => .ok ((j, p) :: rest)

/-- The corrective attempt at the end of `find_current_wave`: with at least
3 points, accept a valid corrective pattern, else report no wave. -/
def corrCheck (points : List (ℤ × ℚ)) : Except Unit (Option CurrentWave) :=
  if 3 ≤ points.length then
    let cp := mkWavePattern "corrective" points
    if cp.is_valid then .ok (some ⟨"corrective", points, cp.getNextTarget⟩)
    else .ok none
  else .ok none

/-- `ElliottWaveAnalyzer.find_current_wave(look_back)`: zigzag-filter the
last `look_back` prices at threshold 0.03, shift the pivot indices to
absolute positions (possibly negative on short series), and try an impulse
pattern (≥ 5 points) then a corrective one (≥ 3 points). -/
def findCurrentWave (prices : List ℚ) (lookBack : ℕ) : Except Unit (Option CurrentWave) :=
  match zigzagE (prices.drop (prices.length - lookBack)) (3 / 100) with
  | .error e => .error e
  | .ok piv =>
    let absPiv : List ℤ := piv.map fun (idx : ℕ) => (prices.length : ℤ) - (lookBack : ℤ) + (idx : ℤ)
    if 3 ≤ absPiv.length then
      match buildPoints prices absPiv with
      | .error e => .error e
      | .ok points =>
        if 5 ≤ points.length then
          let ip := mkWavePattern "impulse" points
          if ip.is_valid then .ok (some ⟨"impulse", points, ip.getNextTarget⟩)
          else corrCheck points
        else corrCheck points
    else .ok none

/-- The dict returned by `predict_next_move`. -/
structure Prediction where
  prediction : String
  confidence : ℚ
  target : Option (ℚ × ℚ)
deriving Repr, DecidableEq

/-- The no-wave prediction: label `unbestimmt` (undetermined),
confidence 0, no target. -/
def undetPred : Prediction := ⟨"unbestimmt", 0, none⟩

/-- `ElliottWaveAnalyzer.predict_next_move()`. -/
def predictNextMove (prices : List ℚ) : Except Unit Prediction :=
  match findCurrentWave prices 30 with
  | .error e => .error e
  | .ok none => .ok undetPred
  | .ok (some cw) =>
    if cw.type = "impulse" then
      .ok ⟨"Korrektur erwartet", 7 / 10, cw.next_target⟩
    else if cw.type = "corrective" then
      .ok ⟨"Trendfortsetzung erwartet", 3 / 5, cw.next_target⟩
    else .ok undetPred

/-! ## RecommendationEngine (`main.get_trade_recommendations`) -/

/-- The recommendations dict: action, rationale, `(price, percent-change)`
targets, optional stop-loss, and risk/reward ratios. -/
structure Recommendations where
  empfehlung : String
  grund : String
  ziele : List (ℚ × ℚ)
  stop_loss : Option ℚ
  risk_reward : List ℚ
deriving Repr, DecidableEq

/-- The initial neutral recommendations dict. -/
def neutralRec : Recommendations :=
  ⟨"Neutral", "Keine klare Handelsempfehlung möglich", [], none, []⟩

/-- `get_trade_recommendations(current_wave, prediction, current_price,
risk_tolerance)`; faults (`ZeroDivisionError`) surface as `.error`. -/
def getTradeRecommendations (currentWave : Option CurrentWave) (pred : Prediction)
    (currentPrice : ℚ) (riskTolerance : ℚ) : Except Unit Recommendations :=
  if pred.confidence < 1 / 2 then
    .ok { neutralRec with grund := "Niedrige Konfidenz in der aktuellen Vorhersage" }
  else if pred.prediction = "Trendfortsetzung erwartet" then
    match currentWave with
    | none => .ok neutralRec
    | some w =>
      if w.points = [] then .ok neutralRec
      else if 2 ≤ w.points.length then
        let pr := w.points.map (·.2)
        let lastPoint := pr.getLastD 0
        let secondLastPoint := pr.getD (pr.length - 2) 0
        if lastPoint > secondLastPoint then
          let waveLow :=
            if 3 ≤ w.points.length then listMin (pr.drop (pr.length - 3))
            else currentPrice * (1 - riskTolerance * (3 / 2))
          let stop := max waveLow (currentPrice * (1 - riskTolerance))
          let base := { neutralRec with
            empfehlung := "Kaufen",
            grund := "Aufwärtstrend wird voraussichtlich fortgesetzt",
            stop_loss := some stop }
          match pred.target with
          | none => .ok base
          | some (t1, t2) =>
            match cdiv t1 currentPrice, cdiv t2 currentPrice,
                  cdiv (currentPrice - stop) currentPrice,
                  cdiv (t1 - currentPrice) currentPrice,
                  cdiv (t2 - currentPrice) currentPrice with
            | some q1, some q2, some risk, some rw1, some rw2 =>
              .ok { base with
                ziele := [(t1, (q1 - 1) * 100), (t2, (q2 - 1) * 100)],
                risk_reward := if risk > 0 then [rw1 / risk, rw2 / risk] else [] }
            | _, _, _, _, _ => .error ()
        else if lastPoint < secondLastPoint then
          let waveHigh :=
            if 3 ≤ w.points.length then listMax (pr.drop (pr.length - 3))
            else currentPrice * (1 + riskTolerance * (3 / 2))
          let stop := min waveHigh (currentPrice * (1 + riskTolerance))
          let base := { neutralRec with
            empfehlung := "Verkaufen",
            grund := "Abwärtstrend wird voraussichtlich fortgesetzt",
            stop_loss := some stop }
          match pred.target with
          | none => .ok base
          | some (t1', t2') =>
            let t1 := if t1' > t2' then t2' else t1'
            let t2 := if t1' > t2' then t1' else t2'
            match cdiv t1 currentPrice, cdiv t2 currentPrice,
                  cdiv (stop - currentPrice) currentPrice,
                  cdiv (currentPrice - t1) currentPrice,
                  cdiv (currentPrice - t2) currentPrice with
            | some q1, some q2, some risk, some rw1, some rw2 =>
              .ok { base with
                ziele := [(t1, -((1 - q1) * 100)), (t2, -((1 - q2) * 100))],
                risk_reward := if risk > 0 then [rw1 / risk, rw2 / risk] else [] }
            | _, _, _, _, _ => .error ()
        else .ok neutralRec
      else .ok neutralRec
  else if pred.prediction = "Korrektur erwartet" then
    match currentWave with
    | none => .ok neutralRec
    | some w =>
      if w.points = [] then .ok neutralRec
      else if 2 ≤ w.points.length then
        let pr := w.points.map (·.2)
        let lastPoint := pr.getLastD 0
        let secondLastPoint := pr.getD (pr.length - 2) 0
        if lastPoint > secondLastPoint then
          let base := { neutralRec with
            empfehlung := "Gewinne mitnehmen",
            grund := "Korrektur des Aufwärtstrends erwartet",
            stop_loss := some (currentPrice * (1 - riskTolerance / 2)) }
          match pred.target with
          | none => .ok base
          | some (t1', t2') =>
            let t1 := if t1' > t2' then t2' else t1'
            let t2 := if t1' > t2' then t1' else t2'
            match cdiv t1 currentPrice, cdiv t2 currentPrice with
            | some q1, some q2 =>
              .ok { base with ziele := [(t1, -((1 - q1) * 100)), (t2, -((1 - q2) * 100))] }
            | _, _ => .error ()
        else if lastPoint < secondLastPoint then
          let base := { neutralRec with
            empfehlung := "Warten oder Short-Position schließen",
            grund := "Korrektur des Abwärtstrends erwartet",
            stop_loss := some (currentPrice * (1 + riskTolerance / 2)) }
          match pred.target with
          | none => .ok base
          | some (t1', t2') =>
            let t1 := if t1' < t2' then t2' else t1'
            let t2 := if t1' < t2' then t1' else t2'
            match cdiv t1 currentPrice, cdiv t2 currentPrice with
            | some q1, some q2 =>
              .ok { base with ziele := [(t1, (q1 - 1) * 100), (t2, (q2 - 1) * 100)] }
            | _, _ => .error ()
        else .ok neutralRec
      else .ok neutralRec
  else if pred.prediction = "Welle könnte abgeschlossen sein" then
    let base := { neutralRec with
      empfehlung := "Vorsichtig sein",
      grund := "Möglicher Trendwechsel, warten auf Bestätigung" }
    match currentWave with
    | none => .ok base
    | some w =>
      if w.points = [] then .ok base
      else if 2 ≤ w.points.length then
        let pr := w.points.map (·.2)
        let lastPoint := pr.getLastD 0
        let secondLastPoint := pr.getD (pr.length - 2) 0
        if lastPoint > secondLastPoint then
          .ok { base with stop_loss := some (currentPrice * (1 - riskTolerance / 2)) }
        else
          .ok { base with stop_loss := some (currentPrice * (1 + riskTolerance / 2)) }
      else .ok base
  else .ok neutralRec

/-! ## BacktestSimulator (`ElliottWaveAnalyzer.backtest`) -/

/-- A logged trade (the source also records the date, reporting only). -/
structure Trade where
  action : String
  price : ℚ
  shares : ℚ
  value : ℚ
deriving Repr, DecidableEq

/-- The mutable state of the backtest walk: cash, share count, trade log
and equity curve. -/
structure WalkState where
  cash : ℚ
  shares : ℚ
  trades : List Trade
  curve : List ℚ
deriving Repr, DecidableEq

/-- One day of the backtest walk: act on the prediction (FLAT→LONG on
trend continuation, LONG→FLAT on expected correction), then record the
day's equity `cash + shares * price`. -/
def btStep (st : WalkState) (pred : Prediction) (price : ℚ) : Except Unit WalkState :=
  let traded : Except Unit WalkState :=
    if pred.prediction = "Trendfortsetzung erwartet" ∧ pred.confidence > 1 / 2 then
      if st.shares = 0 ∧ st.cash > 0 then
        match cdiv st.cash price with
        | none => .error ()
        | some sh =>
          .ok { st with
                shares := sh, cash := 0,
                trades := st.trades ++ [⟨"buy", price, sh, sh * price⟩] }
      else .ok st
    else if pred.prediction = "Korrektur erwartet" ∧ pred.confidence > 1 / 2 then
      if st.shares > 0 then
        .ok { st with
              cash := st.shares * price, shares := 0,
              trades := st.trades ++ [⟨"sell", price, st.shares, st.shares * price⟩] }
      else .ok st
    else .ok st
  match traded with
  | .error e => .error e
  | .ok st1 => .ok { st1 with curve := st1.curve ++ [st1.cash + st1.shares * price] }

/-- The walk over the day indices `is`: each day re-analyzes the data
truncated to that day (`backtest_data.iloc[:i+1]`) and steps the state. -/
def walkAux (bd : List ℚ) : List ℕ → WalkState → Except Unit WalkState
  | [], st => .ok st
  | i :: is, st =>
    match predictNextMove (bd.take (i + 1)) with
    | .error e => .error e
    | .ok pred =>
      match btStep st pred (bd.getD i 0) with
      | .error e => .error e
      | .ok st' => walkAux bd is st'

/-- The backtest walk from day 60 to the end of the sliced data, starting
with all cash and no position. -/
def backtestWalk (bd : List ℚ) (invest : ℚ) : Except Unit WalkState :=
  walkAux bd (List.range' 60 (bd.length - 60)) ⟨invest, 0, [], []⟩

/-- The drawdown pass over the equity curve: track the running peak
(starting at the initial investment) and divide each gap by the peak. -/
def drawdownsAux (peak : ℚ) : List ℚ → Option (List ℚ)
  | [] => some []
  | e :: rest =>
    let peak' := if e > peak then e else peak
    match cdiv (peak' - e) peak' with
    | none => none
    | some d =>
      match drawdownsAux peak' rest with
      | none => none
      | some l => some (d * 100 :: l)

/-- The per-trade return pass: walk the trade log in consecutive pairs and
divide each completed buy→sell pair's gain by the buy value. -/
def tradeReturns : List Trade → Except Unit (List ℚ)
  | t1 :: t2 :: rest =>
    if t1.action = "buy" ∧ t2.action = "sell" then
      match cdiv (t2.value - t1.value) t1.value with
      | none => .error ()
      | some r =>
        match tradeReturns rest with
        | .error e => .error e
        | .ok l => .ok (r * 100 :: l)
    else
      match tradeReturns rest with
      | .error e => .error e
      | .ok l => .ok l
  | _ => .ok []

/-- The summary dict `backtest` returns. -/
structure BacktestResult where
  initial_investment : ℚ
  final_equity : ℚ
  total_return : ℚ
  max_drawdown : ℚ
  num_trades : ℕ
  win_rate : ℚ
  avg_trade_return : ℚ
  trades : List Trade
  equity_curve : List ℚ
deriving Repr, DecidableEq

/-- The metric computations after the walk (`analyzer.py` lines 249-291). -/
def backtestMetrics (invest : ℚ) (trades : List Trade) (curve : List ℚ) :
    Except Unit BacktestResult :=
  let finalEquity := curve.getLast?.getD invest
  match cdiv (finalEquity - invest) invest with
  | none => .error ()
  | some tr =>
    match drawdownsAux invest curve with
    | none => .error ()
    | some dds =>
      let maxDrawdown := if dds = [] then 0 else listMax dds
      match tradeReturns trades with
      | .error e => .error e
      | .ok trs =>
        let avg := if trs = [] then 0 else trs.sum / (trs.length : ℚ)
        let win : ℚ := if trs = [] then 0
          else ((trs.filter (fun r => r > 0)).length : ℚ) / (trs.length : ℚ)
        .ok ⟨invest, finalEquity, tr * 100, maxDrawdown, trades.length / 2,
             win * 100, avg, trades, curve⟩

/-- `ElliottWaveAnalyzer.backtest`, with the date-to-index lookup of the
start and end dates abstracted to the resulting indices:
slice `[startIdx, endIdx]`, walk, and compute the metrics. -/
def backtest (prices : List ℚ) (startIdx endIdx : ℕ) (invest : ℚ) :
    Except Unit BacktestResult :=
  let bd := (prices.drop startIdx).take (endIdx + 1 - startIdx)
  match backtestWalk bd invest with
  | .error e => .error e
  | .ok st => backtestMetrics invest st.trades st.curve

/-- A per-day snapshot of the backtest walk: the day's price and the cash,
share count and recorded equity after that day's action. -/
structure DayState where
  price : ℚ
  cash : ℚ
  shares : ℚ
  equity : ℚ
deriving Repr, DecidableEq

/-- Per-day state snapshots of the backtest walk, used to state the walk's
state-machine invariant; the division here is total because the invariant
theorem's hypotheses rule out zero denominators. -/
def walkStatesAux (bd : List ℚ) : List ℕ → ℚ → ℚ → List DayState
  | [], _, _ => []
  | i :: is, cash, shares =>
    let pred := ((predictNextMove (bd.take (i + 1))).toOption).getD undetPred
    let price := bd.getD i 0
    if pred.prediction = "Trendfortsetzung erwartet" ∧ pred.confidence > 1 / 2 ∧
        shares = 0 ∧ cash > 0 then
      let sh := cash / price
      ⟨price, 0, sh, 0 + sh * price⟩ :: walkStatesAux bd is 0 sh
    else if pred.prediction = "Korrektur erwartet" ∧ pred.confidence > 1 / 2 ∧
        shares > 0 then
      ⟨price, shares * price, 0, shares * price + 0 * price⟩ ::
        walkStatesAux bd is (shares * price) 0
    else
      ⟨price, cash, shares, cash + shares * price⟩ :: walkStatesAux bd is cash shares

/-- The day states of a full backtest over the sliced data. -/
def backtestDayStates (prices : List ℚ) (startIdx endIdx : ℕ) (invest : ℚ) :
    List DayState :=
  let bd := (prices.drop startIdx).take (endIdx + 1 - startIdx)
  walkStatesAux bd (List.range' 60 (bd.length - 60)) invest 0

/-! ## Concrete inputs used by the witnesses and counterexamples -/

/-- A 30-day series whose last-30 zigzag pivots form a valid 7-point
impulse pattern. -/
def impulseSeries : List ℚ :=
  [100, 125, 150, 175, 200, 150, 140, 130, 120, 300, 310, 320, 330, 340,
   250, 240, 230, 220, 400, 410, 420, 430, 440, 380, 370, 360, 350, 340, 330, 320]

/-- The current wave `find_current_wave` detects on `impulseSeries`. -/
def impulseSeriesCW : CurrentWave :=
  ⟨"impulse", [(0, 100), (4, 200), (8, 120), (13, 340), (17, 220), (22, 440), (29, 320)],
   some (5899 / 25, 4601 / 25)⟩

/-- A 30-day series whose last-30 zigzag pivots form a 4-point corrective
pattern (too few points for the impulse attempt). -/
def correctiveSeries : List ℚ :=
  [100, 110, 120, 130, 140, 150, 160, 170, 180, 190, 150, 140, 130, 120, 110,
   100, 90, 80, 70, 60, 200, 210, 220, 230, 240, 250, 260, 270, 280, 290]

/-- The current wave `find_current_wave` detects on `correctiveSeries`. -/
def correctiveSeriesCW : CurrentWave :=
  ⟨"corrective", [(0, 100), (9, 190), (19, 60), (29, 290)], some (100, -871 / 50)⟩

/-- A current wave whose last leg falls (110 → 90) while its projected
target tuple (150, 160) lies above the current price 100. -/
def fallingLegCW : CurrentWave :=
  ⟨"corrective", [(0, 100), (1, 110), (2, 90)], some (150, 160)⟩

/-- A current wave whose last leg rises (80 → 100). -/
def risingLegCW : CurrentWave :=
  ⟨"corrective", [(0, 90), (1, 80), (2, 100)], some (150, 160)⟩

/-- A trend-continuation prediction with confidence 0.6 and target
tuple (150, 160). -/
def trendContPred : Prediction :=
  ⟨"Trendfortsetzung erwartet", 3 / 5, some (150, 160)⟩

/-! ## Proof-scaffolding predicates -/

/-- Invariant of the zigzag loop before processing index `i`: the turning
points are `0` followed by a strictly increasing tail, every turning point
is at most the running extreme index, the tail's last entry is strictly
below the running extreme index, and the running extreme index is below
`i`. -/
def ZigInv (s : ZigzagState) (i : ℕ) : Prop :=
  ∃ t, s.turningPoints = 0 :: t ∧
    List.Chain' (· < ·) t ∧
    (∀ l ∈ t.getLast?, l < s.lastExtremeIdx) ∧
    s.lastExtremeIdx < i ∧
    ∀ j ∈ s.turningPoints, j ≤ s.lastExtremeIdx

/-- The trade log starts with a buy and never repeats an action twice in
a row. -/
def TradesAlternate (ts : List Trade) : Prop :=
  (ts.map (·.action)).headD "buy" = "buy" ∧
  List.Chain' (· ≠ ·) (ts.map (·.action))

/-- Walk invariant for the trade log: the log alternates, its last action
is `buy` exactly while a position is held, and every logged buy has
positive value. -/
def AltInv (st : WalkState) : Prop :=
  TradesAlternate st.trades ∧
  ((st.trades.map (·.action)).getLastD "sell" = "buy" ↔ st.shares ≠ 0) ∧
  (∀ tr ∈ st.trades, tr.action = "buy" → 0 < tr.value)

/-- The trade log of a backtest result, empty if the run faulted. -/
def resultTrades : Except Unit BacktestResult → List Trade
  | .ok r => r.trades
  | .error _ => []


/-! ## Theorems -/

unseal Rat.add Rat.sub Rat.mul Rat.inv

theorem mkWavePattern_is_valid (t : String) (pts : List (ℤ × ℚ)) :
    (mkWavePattern t pts).is_valid = validatePattern t pts := rfl

theorem validatePattern_impulse (pts : List (ℤ × ℚ)) :
    validatePattern "impulse" pts = validateImpulseWave pts := by
  simp [validatePattern]

/-- A valid impulse pattern has at least 6 points. -/
theorem validateImpulseWave_length (pts : List (ℤ × ℚ))
    (h : validateImpulseWave pts = true) : 6 ≤ pts.length := by
  by_contra hlt
  rw [validateImpulseWave, if_pos (by omega)] at h
  exact Bool.false_ne_true h

/-- C5: an impulse `WavePattern` built from at least 6 points whose price
at position 2 does not exceed the price at position 0 is invalid
(rule (a): wave 2 must not retrace past the origin of wave 1). -/
theorem impulse_rule_a (pts : List (ℤ × ℚ))
    (hlen : 6 ≤ pts.length)
    (hle : (pts.map (·.2)).getD 2 0 ≤ (pts.map (·.2)).getD 0 0) :
    (mkWavePattern "impulse" pts).is_valid = false := by
  rw [mkWavePattern_is_valid, validatePattern_impulse, validateImpulseWave,
    if_neg (by omega)]
  simp only [if_pos hle]

/-- Witness for C5 at a concrete 6-point list with `p2 = 95 ≤ 100 = p0`. -/
theorem impulse_rule_a_witness :
    6 ≤ ([((0:ℤ),(100:ℚ)), (1,90), (2,95), (3,85), (4,80), (5,70)]).length ∧
    (mkWavePattern "impulse" [((0:ℤ),(100:ℚ)), (1,90), (2,95), (3,85), (4,80), (5,70)]).is_valid = false :=
  ⟨by decide,
   impulse_rule_a [((0:ℤ),(100:ℚ)), (1,90), (2,95), (3,85), (4,80), (5,70)]
     (by decide) (by decide)⟩

theorem mkWavePattern_points (t : String) (pts : List (ℤ × ℚ)) :
    (mkWavePattern t pts).points = pts := rfl

theorem mkWavePattern_type (t : String) (pts : List (ℤ × ℚ)) :
    (mkWavePattern t pts).pattern_type = t := rfl

/-- C9: for a valid impulse pattern, `get_next_target` projects
`p_last − d·0.382·|p_last − p_first|` (near) and
`p_last − d·0.618·|p_last − p_first|` (far), where `d = +1` when
`p_last > p_first` and `−1` otherwise. -/
theorem impulse_next_target_formula (pts : List (ℤ × ℚ))
    (hv : (mkWavePattern "impulse" pts).is_valid = true) :
    (mkWavePattern "impulse" pts).getNextTarget =
      some ((pts.map (·.2)).getLastD 0 -
              (if (pts.map (·.2)).getLastD 0 > (pts.map (·.2)).headD 0 then (1 : ℚ) else -1) *
                (382 / 1000) * |(pts.map (·.2)).getLastD 0 - (pts.map (·.2)).headD 0|,
            (pts.map (·.2)).getLastD 0 -
              (if (pts.map (·.2)).getLastD 0 > (pts.map (·.2)).headD 0 then (1 : ℚ) else -1) *
                (618 / 1000) * |(pts.map (·.2)).getLastD 0 - (pts.map (·.2)).headD 0|) := by
  have hlen : 6 ≤ pts.length := by
    apply validateImpulseWave_length
    rw [mkWavePattern_is_valid, validatePattern_impulse] at hv
    exact hv
  rw [WavePattern.getNextTarget]
  simp only [mkWavePattern_points, mkWavePattern_type, List.length_map]
  rw [if_neg (by rw [hv]; exact fun h => h rfl), if_pos ⟨by trivial, by omega⟩]

/-- Witness for C9: a valid rising impulse with `p0 = 100`, `p5 = 200`
projects `near = 161.8` and `far = 138.2`. -/
theorem impulse_next_target_formula_witness :
    (mkWavePattern "impulse"
      [((0:ℤ),(100:ℚ)), (1,150), (2,120), (3,190), (4,160), (5,200)]).is_valid = true ∧
    (mkWavePattern "impulse"
      [((0:ℤ),(100:ℚ)), (1,150), (2,120), (3,190), (4,160), (5,200)]).getNextTarget =
      some (809 / 5, 691 / 5) := by
  refine ⟨by decide, ?_⟩
  rw [impulse_next_target_formula
    [((0:ℤ),(100:ℚ)), (1,150), (2,120), (3,190), (4,160), (5,200)] (by decide)]
  decide

/-- The zigzag step preserves the loop invariant. -/
theorem zigzagStep_inv (th : ℚ) (s : ZigzagState) (i : ℕ) (p : ℚ)
    (h : ZigInv s i) : ZigInv (zigzagStep th s i p) (i + 1) := by
  obtain ⟨t, htp, hchain, hlast, hidx, hall⟩ := h
  unfold zigzagStep
  split_ifs with h1 h2 h3 h4 h5
  · exact ⟨t, htp, hchain, fun l hl => (hlast l hl).trans hidx, Nat.lt_succ_self i,
      fun j hj => ((hall j hj).trans hidx.le)⟩
  · refine ⟨t ++ [s.lastExtremeIdx], by simp [htp], ?_, ?_, Nat.lt_succ_self i, ?_⟩
    · exact List.chain'_append.mpr ⟨hchain, List.chain'_singleton _,
        fun x hx y hy => by simp at hy; subst hy; exact hlast x hx⟩
    · intro l hl
      rw [List.getLast?_concat] at hl
      simp at hl; subst hl; exact hidx
    · intro j hj
      simp only [List.mem_append, List.mem_singleton] at hj
      rcases hj with hj | rfl
      · exact (hall j hj).trans hidx.le
      · exact hidx.le
  · exact ⟨t, htp, hchain, hlast, hidx.trans (Nat.lt_succ_self i),
      fun j hj => hall j hj⟩
  · exact ⟨t, htp, hchain, fun l hl => (hlast l hl).trans hidx, Nat.lt_succ_self i,
      fun j hj => ((hall j hj).trans hidx.le)⟩
  · refine ⟨t ++ [s.lastExtremeIdx], by simp [htp], ?_, ?_, Nat.lt_succ_self i, ?_⟩
    · exact List.chain'_append.mpr ⟨hchain, List.chain'_singleton _,
        fun x hx y hy => by simp at hy; subst hy; exact hlast x hx⟩
    · intro l hl
      rw [List.getLast?_concat] at hl
      simp at hl; subst hl; exact hidx
    · intro j hj
      simp only [List.mem_append, List.mem_singleton] at hj
      rcases hj with hj | rfl
      · exact (hall j hj).trans hidx.le
      · exact hidx.le
  · exact ⟨t, htp, hchain, hlast, hidx.trans (Nat.lt_succ_self i),
      fun j hj => hall j hj⟩

/-- The zigzag loop preserves the invariant over the whole price list. -/
theorem zigzagLoop_inv (th : ℚ) : ∀ (ps : List ℚ) (s : ZigzagState) (i : ℕ),
    ZigInv s i → ZigInv (zigzagLoop th s i ps) (i + ps.length)
  | [], s, i, h => by simpa [zigzagLoop] using h
  | p :: ps, s, i, h => by
    have ih := zigzagLoop_inv th ps (zigzagStep th s i p) (i + 1)
      (zigzagStep_inv th s i p h)
    have heq : i + 1 + ps.length = i + (p :: ps).length := by
      simp [List.length_cons]; omega
    rw [zigzagLoop]
    exact heq ▸ ih

/-- The pivot list of `zigzag_filter` on a nonempty series is `0` followed
by a strictly increasing tail. -/
theorem zigzagFilterNE_shape (p0 : ℚ) (rest : List ℚ) (th : ℚ) :
    ∃ t, zigzagFilterNE p0 rest th = 0 :: t ∧ List.Chain' (· < ·) t := by
  have h0 : ZigInv ⟨true, p0, 0, [0]⟩ 1 :=
    ⟨[], rfl, List.chain'_nil, by simp, Nat.zero_lt_one, by simp⟩
  obtain ⟨t, htp, hchain, hlast, _, _⟩ := zigzagLoop_inv th rest _ 1 h0
  rw [zigzagFilterNE]
  split_ifs with hne
  · refine ⟨t ++ [(zigzagLoop th ⟨true, p0, 0, [0]⟩ 1 rest).lastExtremeIdx],
      by simp [htp], ?_⟩
    exact List.chain'_append.mpr ⟨hchain, List.chain'_singleton _,
      fun x hx y hy => by simp at hy; subst hy; exact hlast x hx⟩
  · exact ⟨t, htp, hchain⟩

/-- Every pivot index produced by the zigzag filter is a valid index into
the price list. -/
theorem zigzagFilterNE_lt_length (p0 : ℚ) (rest : List ℚ) (th : ℚ) :
    ∀ j ∈ zigzagFilterNE p0 rest th, j < rest.length + 1 := by
  have h0 : ZigInv ⟨true, p0, 0, [0]⟩ 1 :=
    ⟨[], rfl, List.chain'_nil, by simp, Nat.zero_lt_one, by simp⟩
  obtain ⟨t, htp, _, _, hidx, hall⟩ := zigzagLoop_inv th rest _ 1 h0
  have hidx' : (zigzagLoop th ⟨true, p0, 0, [0]⟩ 1 rest).lastExtremeIdx <
      rest.length + 1 := by omega
  intro j hj
  rw [zigzagFilterNE] at hj
  split_ifs at hj with hne
  · rcases List.mem_append.mp hj with hj | hj
    · exact lt_of_le_of_lt (hall j hj) hidx'
    · simp at hj; subst hj; exact hidx'
  · exact lt_of_le_of_lt (hall j hj) hidx'

/-- C1 (amended): for a nonempty price series and positive threshold, the
zigzag pivot list starts at index 0 and its tail is strictly increasing
(so the whole list is non-decreasing; only the leading 0 can repeat). -/
theorem zigzag_pivots_start_zero_then_increasing (p : ℚ) (ps : List ℚ)
    (threshold : ℚ) (hth : 0 < threshold) :
    (zigzagFilter (p :: ps) threshold).head? = some 0 ∧
    List.Chain' (· < ·) (zigzagFilter (p :: ps) threshold).tail := by
  obtain ⟨t, heq, hch⟩ := zigzagFilterNE_shape p ps threshold
  rw [zigzagFilter, heq]
  exact ⟨rfl, hch⟩

/-- Witness for C1's amended statement at `prices = [100, 90]`,
`threshold = 0.05`. -/
theorem zigzag_pivots_start_zero_then_increasing_witness :
    (0 : ℚ) < 1 / 20 ∧
    (zigzagFilter [100, 90] (1 / 20)).head? = some 0 ∧
    List.Chain' (· < ·) (zigzagFilter [100, 90] (1 / 20)).tail :=
  ⟨by decide, zigzag_pivots_start_zero_then_increasing 100 [90] (1 / 20) (by decide)⟩

/-- Counterexample to C1 as stated: on the series `[100, 90]` with
threshold 0.05 the zigzag filter returns `[0, 0, 1]`, which is not
strictly increasing (the first pivot index 0 repeats). -/
theorem zigzag_pivots_not_strictly_increasing :
    zigzagFilter [100, 90] (1 / 20) = [0, 0, 1] ∧
    ¬ List.Chain' (· < ·) (zigzagFilter [100, 90] (1 / 20)) := by
  have heq : zigzagFilter [100, 90] (1 / 20) = [0, 0, 1] := by decide
  refine ⟨heq, ?_⟩
  rw [heq]
  intro h
  exact lt_irrefl 0 (List.chain'_cons.mp h).1

/-- One `_identify_waves` step appends records independently of the
accumulated state: lengths add, and the other kinds are untouched. -/
theorem impulseTry_shape (p : List ℚ) (piv : List ℕ) (i : ℕ) (w : Waves) :
    (impulseTry p piv i w).impulse.length =
      w.impulse.length + (impulseTry p piv i emptyWaves).impulse.length ∧
    (impulseTry p piv i w).corrective = w.corrective ∧
    (impulseTry p piv i w).motive = w.motive ∧
    (impulseTry p piv i w).diagonal = w.diagonal ∧
    w.impulse <+: (impulseTry p piv i w).impulse := by
  unfold impulseTry
  split_ifs <;> simp [emptyWaves]

theorem correctiveTry_shape (p : List ℚ) (piv : List ℕ) (i : ℕ) (w : Waves) :
    (correctiveTry p piv i w).corrective.length =
      w.corrective.length + (correctiveTry p piv i emptyWaves).corrective.length ∧
    (correctiveTry p piv i w).impulse = w.impulse ∧
    (correctiveTry p piv i w).motive = w.motive ∧
    (correctiveTry p piv i w).diagonal = w.diagonal ∧
    w.corrective <+: (correctiveTry p piv i w).corrective := by
  unfold correctiveTry
  split_ifs <;> simp [emptyWaves]

/-- One `_identify_waves` step appends records independently of the
accumulated state: lengths add, and the other kinds are untouched. -/
theorem identifyStep_len (p : List ℚ) (piv : List ℕ) (i : ℕ) (w : Waves) :
    (identifyStep p piv w i).impulse.length =
      w.impulse.length + (identifyStep p piv emptyWaves i).impulse.length ∧
    (identifyStep p piv w i).corrective.length =
      w.corrective.length + (identifyStep p piv emptyWaves i).corrective.length ∧
    (identifyStep p piv w i).motive = w.motive ∧
    (identifyStep p piv w i).diagonal = w.diagonal := by
  have hiw := impulseTry_shape p piv i w
  have hie := impulseTry_shape p piv i emptyWaves
  have hcw := correctiveTry_shape p piv i (impulseTry p piv i w)
  have hce := correctiveTry_shape p piv i (impulseTry p piv i emptyWaves)
  unfold identifyStep
  refine ⟨?_, ?_, ?_, ?_⟩
  · rw [hcw.2.1, hce.2.1, hiw.1]
  · rw [hcw.1, hce.1, hiw.2.1, hie.2.1]
    simp [emptyWaves]
  · rw [hcw.2.2.1, hiw.2.2.1]
  · rw [hcw.2.2.2.1, hiw.2.2.2.1]

/-- One `_identify_waves` step only appends to the wave lists. -/
theorem identifyStep_prefix (p : List ℚ) (piv : List ℕ) (i : ℕ) (w : Waves) :
    w.impulse <+: (identifyStep p piv w i).impulse ∧
    w.corrective <+: (identifyStep p piv w i).corrective := by
  have hiw := impulseTry_shape p piv i w
  have hcw := correctiveTry_shape p piv i (impulseTry p piv i w)
  unfold identifyStep
  constructor
  · rw [hcw.2.1]; exact hiw.2.2.2.2
  · rw [hiw.2.1] at hcw; exact hcw.2.2.2.2

/-- The `_identify_waves` fold appends record counts independently of the
starting state. -/
theorem identifyFold_len (p : List ℚ) (piv : List ℕ) :
    ∀ (l : List ℕ) (w : Waves),
      (l.foldl (identifyStep p piv) w).impulse.length =
        w.impulse.length + (l.foldl (identifyStep p piv) emptyWaves).impulse.length ∧
      (l.foldl (identifyStep p piv) w).corrective.length =
        w.corrective.length + (l.foldl (identifyStep p piv) emptyWaves).corrective.length ∧
      (l.foldl (identifyStep p piv) w).motive = w.motive ∧
      (l.foldl (identifyStep p piv) w).diagonal = w.diagonal
  | [], w => by simp [emptyWaves]
  | a :: l, w => by
    have ihw := identifyFold_len p piv l (identifyStep p piv w a)
    have ihe := identifyFold_len p piv l (identifyStep p piv emptyWaves a)
    have hs := identifyStep_len p piv a w
    have hse := identifyStep_len p piv a emptyWaves
    simp only [List.foldl_cons]
    refine ⟨?_, ?_, ?_, ?_⟩
    · rw [ihw.1, ihe.1, hs.1]; omega
    · rw [ihw.2.1, ihe.2.1, hs.2.1]; omega
    · rw [ihw.2.2.1, hs.2.2.1]
    · rw [ihw.2.2.2, hs.2.2.2]

/-- The `_identify_waves` fold only appends to the wave lists. -/
theorem identifyFold_prefix (p : List ℚ) (piv : List ℕ) :
    ∀ (l : List ℕ) (w : Waves),
      w.impulse <+: (l.foldl (identifyStep p piv) w).impulse ∧
      w.corrective <+: (l.foldl (identifyStep p piv) w).corrective
  | [], w => by simp
  | a :: l, w => by
    have ih := identifyFold_prefix p piv l (identifyStep p piv w a)
    have hs := identifyStep_prefix p piv a w
    simp only [List.foldl_cons]
    exact ⟨hs.1.trans ih.1, hs.2.trans ih.2⟩

/-- `analyze` appends to the analyzer's waves state: record counts add
independently of the starting state, the existing lists stay as prefixes,
and the motive and diagonal lists are untouched. -/
theorem analyzeWaves_shape (prices : List ℚ) (threshold : ℚ) (window : ℕ) (w : Waves) :
    (analyzeWaves prices threshold window w).impulse.length =
      w.impulse.length + (analyzeWaves prices threshold window emptyWaves).impulse.length ∧
    (analyzeWaves prices threshold window w).corrective.length =
      w.corrective.length + (analyzeWaves prices threshold window emptyWaves).corrective.length ∧
    (analyzeWaves prices threshold window w).motive = w.motive ∧
    (analyzeWaves prices threshold window w).diagonal = w.diagonal ∧
    w.impulse <+: (analyzeWaves prices threshold window w).impulse ∧
    w.corrective <+: (analyzeWaves prices threshold window w).corrective := by
  simp only [analyzeWaves, identifyWaves]
  have hlen := identifyFold_len prices
    (if (zigzagFilter prices threshold).length < 5 then localExtremaPivots prices window
      else zigzagFilter prices threshold)
    (List.range ((if (zigzagFilter prices threshold).length < 5 then
      localExtremaPivots prices window else zigzagFilter prices threshold).length - 5)) w
  have hpre := identifyFold_prefix prices
    (if (zigzagFilter prices threshold).length < 5 then localExtremaPivots prices window
      else zigzagFilter prices threshold)
    (List.range ((if (zigzagFilter prices threshold).length < 5 then
      localExtremaPivots prices window else zigzagFilter prices threshold).length - 5)) w
  exact ⟨hlen.1, hlen.2.1, hlen.2.2.1, hlen.2.2.2, hpre.1, hpre.2⟩

/-- C4 (amended): `analyze` accumulates state across calls.  A second
identical call returns per-kind lists that extend the first call's lists,
with exactly twice as many impulse and corrective records; the motive and
diagonal lists stay empty. -/
theorem analyze_accumulates (prices : List ℚ) (threshold : ℚ) (window : ℕ) :
    (analyzeWaves prices threshold window emptyWaves).impulse <+:
      (analyzeWaves prices threshold window
        (analyzeWaves prices threshold window emptyWaves)).impulse ∧
    (analyzeWaves prices threshold window
        (analyzeWaves prices threshold window emptyWaves)).impulse.length =
      2 * (analyzeWaves prices threshold window emptyWaves).impulse.length ∧
    (analyzeWaves prices threshold window emptyWaves).corrective <+:
      (analyzeWaves prices threshold window
        (analyzeWaves prices threshold window emptyWaves)).corrective ∧
    (analyzeWaves prices threshold window
        (analyzeWaves prices threshold window emptyWaves)).corrective.length =
      2 * (analyzeWaves prices threshold window emptyWaves).corrective.length ∧
    (analyzeWaves prices threshold window
        (analyzeWaves prices threshold window emptyWaves)).motive = [] ∧
    (analyzeWaves prices threshold window
        (analyzeWaves prices threshold window emptyWaves)).diagonal = [] := by
  have h1 := analyzeWaves_shape prices threshold window emptyWaves
  have h2 := analyzeWaves_shape prices threshold window
    (analyzeWaves prices threshold window emptyWaves)
  refine ⟨h2.2.2.2.2.1, ?_, h2.2.2.2.2.2, ?_, ?_, ?_⟩
  · rw [h2.1]; omega
  · rw [h2.2.1]; omega
  · rw [h2.2.2.1, h1.2.2.1]; rfl
  · rw [h2.2.2.2.1, h1.2.2.2.1]; rfl

/-- Counterexample to C4 as stated: on the series
`[100, 50, 100, 50, 100, 50]` a second identical `analyze` call does not
return the same wave mapping (the corrective list doubles from 2 to 4
records). -/
theorem analyze_not_idempotent :
    (analyzeWaves [100, 50, 100, 50, 100, 50] (3 / 100) 10
        (analyzeWaves [100, 50, 100, 50, 100, 50] (3 / 100) 10 emptyWaves)).corrective.length = 4 ∧
    (analyzeWaves [100, 50, 100, 50, 100, 50] (3 / 100) 10 emptyWaves).corrective.length = 2 ∧
    analyzeWaves [100, 50, 100, 50, 100, 50] (3 / 100) 10
        (analyzeWaves [100, 50, 100, 50, 100, 50] (3 / 100) 10 emptyWaves) ≠
      analyzeWaves [100, 50, 100, 50, 100, 50] (3 / 100) 10 emptyWaves := by
  refine ⟨by decide, by decide, ?_⟩
  intro h
  have h4 : (analyzeWaves [100, 50, 100, 50, 100, 50] (3 / 100) 10
      (analyzeWaves [100, 50, 100, 50, 100, 50] (3 / 100) 10 emptyWaves)).corrective.length = 4 := by
    decide
  rw [h] at h4
  have h2 : (analyzeWaves [100, 50, 100, 50, 100, 50] (3 / 100) 10
      emptyWaves).corrective.length = 2 := by decide
  omega


/-- The corrective attempt only ever reports a corrective wave. -/
theorem corrCheck_type (points : List (ℤ × ℚ)) (w : CurrentWave)
    (h : corrCheck points = .ok (some w)) : w.type = "corrective" := by
  simp only [corrCheck] at h
  split_ifs at h
  · injection h with h'; injection h' with h''; subst h''; rfl
  all_goals injection h with h'; cases h'

/-- `find_current_wave` only ever reports an impulse or a corrective
wave. -/
theorem findCurrentWave_type (prices : List ℚ) (w : CurrentWave)
    (h : findCurrentWave prices 30 = .ok (some w)) :
    w.type = "impulse" ∨ w.type = "corrective" := by
  rw [findCurrentWave] at h
  rcases hz : zigzagE (prices.drop (prices.length - 30)) (3 / 100) with e | piv <;>
    rw [hz] at h <;> dsimp only at h
  · cases h
  · split_ifs at h with h3
    · split at h
      · cases h
      · split_ifs at h with h5 hv
        · injection h with h'; injection h' with h''; subst h''; left; rfl
        · exact Or.inr (corrCheck_type _ _ h)
        · exact Or.inr (corrCheck_type _ _ h)
    · cases h


/-- C8: `predict_next_move` returns the undetermined prediction (label
`unbestimmt`, confidence 0, no target) exactly when `find_current_wave`
finds nothing; an impulse current wave yields `Korrektur erwartet` with
confidence 0.7 and the wave's projection; a corrective current wave yields
`Trendfortsetzung erwartet` with confidence 0.6 and the wave's
projection. -/
theorem predict_matches_current_wave (prices : List ℚ) :
    (predictNextMove prices = .ok undetPred ↔ findCurrentWave prices 30 = .ok none) ∧
    (∀ w, findCurrentWave prices 30 = .ok (some w) → w.type = "impulse" →
      predictNextMove prices = .ok ⟨"Korrektur erwartet", 7 / 10, w.next_target⟩) ∧
    (∀ w, findCurrentWave prices 30 = .ok (some w) → w.type = "corrective" →
      predictNextMove prices = .ok ⟨"Trendfortsetzung erwartet", 3 / 5, w.next_target⟩) := by
  refine ⟨?_, ?_, ?_⟩
  · constructor
    · intro h
      unfold predictNextMove at h
      rcases hf : findCurrentWave prices 30 with e | o <;> rw [hf] at h
      · cases h
      · rcases o with _ | w
        · rfl
        · dsimp only at h
          rcases findCurrentWave_type prices w hf with ht | ht <;>
            rw [ht] at h <;> simp [undetPred] at h
    · intro h
      unfold predictNextMove
      rw [h]
  · intro w hf ht
    unfold predictNextMove
    rw [hf]
    dsimp only
    rw [ht]
    simp
  · intro w hf ht
    unfold predictNextMove
    rw [hf]
    dsimp only
    rw [ht]
    simp

/-- Witness for C8: on `impulseSeries` the current wave is an impulse and
the prediction is `Korrektur erwartet` with confidence 0.7; on
`correctiveSeries` it is corrective and the prediction is
`Trendfortsetzung erwartet` with confidence 0.6. -/
theorem predict_matches_current_wave_witness :
    predictNextMove impulseSeries =
      .ok ⟨"Korrektur erwartet", 7 / 10, impulseSeriesCW.next_target⟩ ∧
    predictNextMove correctiveSeries =
      .ok ⟨"Trendfortsetzung erwartet", 3 / 5, correctiveSeriesCW.next_target⟩ :=
  ⟨(predict_matches_current_wave impulseSeries).2.1 impulseSeriesCW (by rfl) (by rfl),
   (predict_matches_current_wave correctiveSeries).2.2 correctiveSeriesCW (by rfl) (by rfl)⟩

/-- C2 (amended): when the prediction is trend-continuation with
confidence ≥ 0.5 and the current wave's last leg rises (its last pivot
price exceeds the second-last), the recommendation is `Kaufen` (buy) with
stop-loss `max(wave_low, price·(1−risk))`, where `wave_low` is the lowest
of the last three pivot prices (or `price·(1−1.5·risk)` with fewer than
three points).  The trend direction comes from the last two wave points,
not from the target tuple. -/
theorem trend_continuation_upward_buy (w : CurrentWave) (pred : Prediction)
    (price rt : ℚ)
    (hconf : ¬ pred.confidence < 1 / 2)
    (hlabel : pred.prediction = "Trendfortsetzung erwartet")
    (hlen : 2 ≤ w.points.length)
    (hup : (w.points.map (·.2)).getD ((w.points.map (·.2)).length - 2) 0 <
      (w.points.map (·.2)).getLastD 0)
    (hprice : price ≠ 0) :
    ∃ r, getTradeRecommendations (some w) pred price rt = .ok r ∧
      r.empfehlung = "Kaufen" ∧
      r.stop_loss = some (max
        (if 3 ≤ w.points.length then
          listMin ((w.points.map (·.2)).drop ((w.points.map (·.2)).length - 3))
        else price * (1 - rt * (3 / 2)))
        (price * (1 - rt))) := by
  have hne : w.points ≠ [] := by
    intro h; rw [h] at hlen; simp at hlen
  unfold getTradeRecommendations
  rw [if_neg hconf, if_pos hlabel]
  dsimp only
  rw [if_neg hne, if_pos hlen, if_pos hup]
  rcases htgt : pred.target with _ | ⟨t1, t2⟩
  · exact ⟨_, rfl, rfl, rfl⟩
  · simp only [cdiv, if_neg hprice]
    exact ⟨_, rfl, rfl, rfl⟩

/-- Witness for C2's amended statement: a rising current wave with prices
90, 80, 100, current price 100, risk 0.02 yields `Kaufen` with stop-loss
`max(min(90,80,100), 98) = 98`. -/
theorem trend_continuation_upward_buy_witness :
    ∃ r, getTradeRecommendations (some risingLegCW) trendContPred 100 (1 / 50) = .ok r ∧
      r.empfehlung = "Kaufen" ∧
      r.stop_loss = some (max
        (if 3 ≤ risingLegCW.points.length then
          listMin ((risingLegCW.points.map (·.2)).drop
            ((risingLegCW.points.map (·.2)).length - 3))
        else 100 * (1 - (1 / 50) * (3 / 2)))
        (100 * (1 - 1 / 50))) :=
  trend_continuation_upward_buy risingLegCW trendContPred 100 (1 / 50)
    (by decide) rfl (by decide) (by decide) (by decide)

/-- Counterexample to C2 as stated: with a trend-continuation prediction
whose target tuple (150, 160) lies above the current price 100 (an upward
target in the claim's sense) but whose current wave's last leg falls, the
code recommends `Verkaufen` with stop-loss 102, not `Kaufen` with
stop-loss `100·(1−0.02) = 98`. -/
theorem trend_continuation_target_direction_counterexample :
    getTradeRecommendations (some fallingLegCW) trendContPred 100 (1 / 50) =
      .ok ⟨"Verkaufen", "Abwärtstrend wird voraussichtlich fortgesetzt",
        [(150, 50), (160, 60)], some 102, [-25, -30]⟩ ∧
    ¬ ∃ r, getTradeRecommendations (some fallingLegCW) trendContPred 100 (1 / 50) = .ok r ∧
        r.empfehlung = "Kaufen" ∧ r.stop_loss = some (100 * (1 - 1 / 50)) := by
  have h1 : getTradeRecommendations (some fallingLegCW) trendContPred 100 (1 / 50) =
      .ok ⟨"Verkaufen", "Abwärtstrend wird voraussichtlich fortgesetzt",
        [(150, 50), (160, 60)], some 102, [-25, -30]⟩ := by rfl
  refine ⟨h1, ?_⟩
  rintro ⟨r, heq, hbuy, hstop⟩
  rw [h1] at heq
  injection heq with heq'
  rw [← heq'] at hbuy
  simp at hbuy

theorem cdiv_eq_some (a b q : ℚ) (h : cdiv a b = some q) : b ≠ 0 ∧ q = a / b := by
  by_cases hb : b = 0
  · rw [cdiv, if_pos hb] at h; cases h
  · rw [cdiv, if_neg hb] at h; exact ⟨hb, (Option.some_inj.mp h).symm⟩

/-- Case analysis of one backtest day: a buy, a sell, or no transition,
each followed by the equity record. -/
theorem btStep_cases (st : WalkState) (pred : Prediction) (price : ℚ) (st' : WalkState)
    (h : btStep st pred price = .ok st') :
    (price ≠ 0 ∧ st.shares = 0 ∧ st.cash > 0 ∧
      st' = ⟨0, st.cash / price,
             st.trades ++ [⟨"buy", price, st.cash / price, st.cash / price * price⟩],
             st.curve ++ [0 + st.cash / price * price]⟩) ∨
    (st.shares > 0 ∧
      st' = ⟨st.shares * price, 0,
             st.trades ++ [⟨"sell", price, st.shares, st.shares * price⟩],
             st.curve ++ [st.shares * price + 0 * price]⟩) ∨
    (st' = ⟨st.cash, st.shares, st.trades, st.curve ++ [st.cash + st.shares * price]⟩) := by
  unfold btStep at h
  dsimp only at h
  split_ifs at h with h1 h2 h3 h4
  · rcases hc : cdiv st.cash price with _ | sh <;> rw [hc] at h
    · cases h
    · obtain ⟨hb, hq⟩ := cdiv_eq_some _ _ _ hc
      dsimp only at h
      injection h with h'
      subst hq
      exact Or.inl ⟨hb, h2.1, h2.2, by cases st'; cases h'; rfl⟩
  · dsimp only at h
    injection h with h'
    exact Or.inr (Or.inr (by cases st'; cases h'; cases st; rfl))
  · dsimp only at h
    injection h with h'
    exact Or.inr (Or.inl ⟨h4, by cases st'; cases h'; cases st; rfl⟩)
  · dsimp only at h
    injection h with h'
    exact Or.inr (Or.inr (by cases st'; cases h'; cases st; rfl))
  · dsimp only at h
    injection h with h'
    exact Or.inr (Or.inr (by cases st'; cases h'; cases st; rfl))

theorem headD_append_singleton (acts : List String) (x d : String) (h : acts ≠ []) :
    (acts ++ [x]).headD d = acts.headD d := by
  cases acts with
  | nil => exact absurd rfl h
  | cons a l => rfl

/-- One backtest day preserves the trade-log alternation invariant. -/
theorem btStep_alt (st : WalkState) (pred : Prediction) (price : ℚ) (st' : WalkState)
    (h : btStep st pred price = .ok st') (hi : AltInv st) : AltInv st' := by
  obtain ⟨⟨hhead, hchain⟩, hlast, hval⟩ := hi
  rcases btStep_cases st pred price st' h with
    ⟨hp, hsh0, hcpos, rfl⟩ | ⟨hshpos, rfl⟩ | rfl
  · -- buy
    have hlastne : ∀ x ∈ (st.trades.map (·.action)).getLast?, x ≠ "buy" := by
      intro x hx hxb
      have hld : (st.trades.map (·.action)).getLastD "sell" = "buy" := by
        rw [List.getLastD_eq_getLast?, hx]; exact hxb
      exact (hlast.mp hld) hsh0
    refine ⟨⟨?_, ?_⟩, ?_, ?_⟩
    · dsimp only
      simp only [List.map_append, List.map_cons, List.map_nil]
      by_cases hnil : st.trades.map (·.action) = []
      · rw [hnil]; rfl
      · rw [headD_append_singleton _ _ _ hnil]; exact hhead
    · dsimp only
      simp only [List.map_append, List.map_cons, List.map_nil]
      exact List.chain'_append.mpr ⟨hchain, List.chain'_singleton _,
        fun x hx y hy => by simp at hy; subst hy; exact fun hxy => hlastne x hx hxy⟩
    · dsimp only
      simp only [List.map_append, List.map_cons, List.map_nil, List.getLastD_concat]
      constructor
      · intro _
        exact div_ne_zero (ne_of_gt hcpos) hp
      · intro _; trivial
    · intro tr htr
      dsimp only at htr
      rcases List.mem_append.mp htr with htr | htr
      · exact hval tr htr
      · simp at htr; subst htr
        intro _
        dsimp only
        rw [div_mul_cancel₀ _ hp]
        exact hcpos
  · -- sell
    have hbuylast : (st.trades.map (·.action)).getLastD "sell" = "buy" :=
      hlast.mpr (ne_of_gt hshpos)
    have hne : st.trades.map (·.action) ≠ [] := by
      intro he; rw [he] at hbuylast; exact absurd hbuylast (by decide)
    refine ⟨⟨?_, ?_⟩, ?_, ?_⟩
    · dsimp only
      simp only [List.map_append, List.map_cons, List.map_nil]
      rw [headD_append_singleton _ _ _ hne]; exact hhead
    · dsimp only
      simp only [List.map_append, List.map_cons, List.map_nil]
      refine List.chain'_append.mpr ⟨hchain, List.chain'_singleton _, ?_⟩
      intro x hx y hy
      simp at hy; subst hy
      rw [List.getLastD_eq_getLast?, Option.mem_def.mp hx] at hbuylast
      simp at hbuylast
      rw [hbuylast]
      decide
    · dsimp only
      simp only [List.map_append, List.map_cons, List.map_nil, List.getLastD_concat]
      constructor
      · intro hsb; exact absurd hsb (by decide)
      · intro hne0; exact absurd rfl hne0
    · intro tr htr
      dsimp only at htr
      rcases List.mem_append.mp htr with htr | htr
      · exact hval tr htr
      · simp at htr; subst htr
        intro hb
        dsimp only at hb
        exact absurd hb (by decide)
  · -- no transition
    exact ⟨⟨hhead, hchain⟩, hlast, hval⟩

/-- The backtest walk preserves the alternation invariant. -/
theorem walkAux_alt (bd : List ℚ) : ∀ (is : List ℕ) (st st' : WalkState),
    walkAux bd is st = .ok st' → AltInv st → AltInv st'
  | [], st, st', h, hi => by
    injection h with h'
    exact h' ▸ hi
  | i :: is, st, st', h, hi => by
    have h2 : (match predictNextMove (bd.take (i + 1)) with
      | .error e => .error e
      | .ok pred =>
        match btStep st pred (bd.getD i 0) with
        | .error e => .error e
        | .ok st1 => walkAux bd is st1) = Except.ok st' := h
    rcases hp : predictNextMove (bd.take (i + 1)) with e | pred <;> rw [hp] at h2
    · cases h2
    · dsimp only at h2
      rcases hs : btStep st pred (bd.getD i 0) with e | st1 <;> rw [hs] at h2
      · cases h2
      · exact walkAux_alt bd is st1 st' h2 (btStep_alt st pred _ st1 hs hi)

/-- The initial walk state satisfies the alternation invariant. -/
theorem altInv_init (invest : ℚ) : AltInv ⟨invest, 0, [], []⟩ := by
  refine ⟨⟨rfl, List.chain'_nil⟩, ?_, ?_⟩
  · dsimp only
    constructor
    · intro h; exact absurd h (by decide)
    · intro h; exact absurd rfl h
  · intro tr htr; exact absurd htr (List.not_mem_nil tr)

/-- `backtestMetrics` reports exactly the walk's trade log. -/
theorem backtestMetrics_trades (invest : ℚ) (trades : List Trade) (curve : List ℚ)
    (r : BacktestResult) (h : backtestMetrics invest trades curve = .ok r) :
    r.trades = trades := by
  unfold backtestMetrics at h
  dsimp only at h
  rcases h1 : cdiv (curve.getLast?.getD invest - invest) invest with _ | tr <;>
    rw [h1] at h
  · cases h
  · dsimp only at h
    rcases h2 : drawdownsAux invest curve with _ | dds <;> rw [h2] at h
    · cases h
    · dsimp only at h
      rcases h3 : tradeReturns trades with e | trs <;> rw [h3] at h
      · cases h
      · dsimp only at h
        injection h with h'
        rw [← h']

/-- C6: in every completed backtest run the trade log strictly
alternates: the first entry (if any) is a buy and no two consecutive
entries share an action. -/
theorem backtest_trades_alternate (prices : List ℚ) (startIdx endIdx : ℕ) (invest : ℚ) :
    TradesAlternate (resultTrades (backtest prices startIdx endIdx invest)) := by
  unfold backtest
  dsimp only
  rcases hw : backtestWalk ((prices.drop startIdx).take (endIdx + 1 - startIdx)) invest
      with e | st <;> dsimp only
  · exact ⟨rfl, List.chain'_nil⟩
  · have hinv : AltInv st := walkAux_alt _ _ _ _ hw (altInv_init invest)
    rcases hm : backtestMetrics invest st.trades st.curve with e | r
    · exact ⟨rfl, List.chain'_nil⟩
    · dsimp only [resultTrades]
      rw [backtestMetrics_trades invest st.trades st.curve r hm]
      exact hinv.1

theorem corrCheck_isOk (points : List (ℤ × ℚ)) : ∃ o, corrCheck points = .ok o := by
  unfold corrCheck
  dsimp only
  split_ifs <;> exact ⟨_, rfl⟩

theorem buildPoints_ok (prices : List ℚ) : ∀ (js : List ℤ),
    (∀ j ∈ js, 0 ≤ j ∧ j < (prices.length : ℤ)) →
    ∃ pts, buildPoints prices js = .ok pts ∧ pts.length = js.length
  | [], _ => ⟨[], rfl, rfl⟩
  | j :: js, h => by
    obtain ⟨h0, hlt⟩ := h j (List.mem_cons_self j js)
    have htn : j.toNat < prices.length := by omega
    have hg : pyGet prices j = some (prices.get ⟨j.toNat, htn⟩) := by
      rw [pyGet, if_pos h0]
      exact List.get?_eq_get htn
    obtain ⟨pts, hbp, hl⟩ := buildPoints_ok prices js
      (fun x hx => h x (List.mem_cons_of_mem j hx))
    refine ⟨(j, prices.get ⟨j.toNat, htn⟩) :: pts, ?_, by simp [hl]⟩
    rw [buildPoints, hg, hbp]

theorem findCurrentWave_isOk (prices : List ℚ) (h : 30 ≤ prices.length) :
    ∃ o, findCurrentWave prices 30 = .ok o := by
  unfold findCurrentWave
  have hlen30 : (prices.drop (prices.length - 30)).length = 30 := by
    rw [List.length_drop]; omega
  rcases hd : prices.drop (prices.length - 30) with _ | ⟨p0, rest⟩
  · rw [hd] at hlen30; cases hlen30
  · dsimp only [zigzagE]
    have hrest : rest.length + 1 = 30 := by
      rw [hd] at hlen30; simpa using hlen30
    split_ifs with h3
    · have hbnd : ∀ j ∈ (zigzagFilterNE p0 rest (3 / 100)).map
          (fun (idx : ℕ) => (prices.length : ℤ) - ((30 : ℕ) : ℤ) + (idx : ℤ)),
          0 ≤ j ∧ j < (prices.length : ℤ) := by
        intro j hj
        rw [List.mem_map] at hj
        obtain ⟨idx, hidx, rfl⟩ := hj
        have := zigzagFilterNE_lt_length p0 rest (3 / 100) idx hidx
        rw [hrest] at this
        omega
      obtain ⟨pts, hbp, _⟩ := buildPoints_ok prices _ hbnd
      rw [hbp]
      dsimp only
      split_ifs with h5 hv
      · exact ⟨_, rfl⟩
      · exact corrCheck_isOk pts
      · exact corrCheck_isOk pts
    · exact ⟨none, rfl⟩

theorem predictNextMove_isOk (prices : List ℚ) (h : 30 ≤ prices.length) :
    ∃ p, predictNextMove prices = .ok p := by
  obtain ⟨o, ho⟩ := findCurrentWave_isOk prices h
  unfold predictNextMove
  rw [ho]
  rcases o with _ | cw
  · exact ⟨_, rfl⟩
  · dsimp only
    split_ifs <;> exact ⟨_, rfl⟩

/-- On a constant positive price series the zigzag loop never updates its
state. -/
theorem zigzagLoop_const (th c : ℚ) (hc : 0 ≤ c * th) :
    ∀ (m i : ℕ) (idx : ℕ) (tp : List ℕ),
    zigzagLoop th ⟨true, c, idx, tp⟩ i (List.replicate m c) = ⟨true, c, idx, tp⟩
  | 0, _, _, _ => rfl
  | m + 1, i, idx, tp => by
    rw [List.replicate_succ, zigzagLoop]
    have hstep : zigzagStep th ⟨true, c, idx, tp⟩ i c = ⟨true, c, idx, tp⟩ := by
      rw [zigzagStep]
      dsimp only
      rw [if_pos rfl, if_neg (lt_irrefl c), if_neg (by nlinarith)]
    rw [hstep]
    exact zigzagLoop_const th c hc m (i + 1) idx tp

/-- On a constant positive series the zigzag filter returns only the first
index. -/
theorem zigzagFilterNE_const (th c : ℚ) (hc : 0 ≤ c * th) (m : ℕ) :
    zigzagFilterNE c (List.replicate m c) th = [0] := by
  rw [zigzagFilterNE, zigzagLoop_const th c hc m 1 0 [0]]
  rfl

/-- On a constant positive price series `find_current_wave` finds
nothing. -/
theorem findCurrentWave_const (c : ℚ) (hc : 0 < c) (k : ℕ) (hk : 1 ≤ k) :
    findCurrentWave (List.replicate k c) 30 = .ok none := by
  unfold findCurrentWave
  have hdrop : (List.replicate k c).drop ((List.replicate k c).length - 30) =
      List.replicate (k - (k - 30)) c := by
    rw [List.length_replicate, List.drop_replicate]
  rcases hmk : k - (k - 30) with _ | m
  · omega
  · rw [hdrop, hmk, List.replicate_succ]
    dsimp only [zigzagE]
    rw [zigzagFilterNE_const _ c (by positivity) m]
    rfl

/-- On a constant positive price series the prediction is always
undetermined. -/
theorem predictNextMove_const (c : ℚ) (hc : 0 < c) (k : ℕ) (hk : 1 ≤ k) :
    predictNextMove (List.replicate k c) = .ok undetPred := by
  unfold predictNextMove
  rw [findCurrentWave_const c hc k hk]

/-- Unfolding equations of the backtest walk. -/
theorem walkAux_nil (bd : List ℚ) (st : WalkState) : walkAux bd [] st = .ok st := rfl

theorem walkAux_cons (bd : List ℚ) (i : ℕ) (is : List ℕ) (st : WalkState) :
    walkAux bd (i :: is) st =
      match predictNextMove (bd.take (i + 1)) with
      | .error e => .error e
      | .ok pred =>
        match btStep st pred (bd.getD i 0) with
        | .error e => .error e
        | .ok st1 => walkAux bd is st1 := rfl

/-- A day with an undetermined prediction only records equity. -/
theorem btStep_undet (st : WalkState) (price : ℚ) :
    btStep st undetPred price =
      .ok { st with curve := st.curve ++ [st.cash + st.shares * price] } := by
  rw [btStep]
  rw [if_neg (by simp [undetPred]), if_neg (by simp [undetPred])]

/-- On a constant positive price series the walk never trades. -/
theorem walkAux_const (n : ℕ) (c : ℚ) (hc : 0 < c) :
    ∀ (is : List ℕ) (cash shares : ℚ) (tr : List Trade) (cv : List ℚ),
    (∀ i ∈ is, i < n) →
    walkAux (List.replicate n c) is ⟨cash, shares, tr, cv⟩ =
      .ok ⟨cash, shares, tr, cv ++ List.replicate is.length (cash + shares * c)⟩
  | [], cash, shares, tr, cv, _ => by simp [walkAux_nil]
  | i :: is, cash, shares, tr, cv, hmem => by
    have hin : i < n := hmem i (List.mem_cons_self i is)
    have htake : (List.replicate n c).take (i + 1) = List.replicate (min (i + 1) n) c :=
      List.take_replicate _ _ _
    have hpred : predictNextMove ((List.replicate n c).take (i + 1)) = .ok undetPred := by
      rw [htake]
      exact predictNextMove_const c hc _ (by omega)
    have hgetd : (List.replicate n c).getD i 0 = c := by
      rw [List.getD_eq_getElem?_getD, List.getElem?_replicate, if_pos hin]
      rfl
    rw [walkAux_cons, hpred]
    dsimp only
    rw [hgetd, btStep_undet]
    dsimp only
    rw [walkAux_const n c hc is cash shares tr (cv ++ [cash + shares * c])
      (fun j hj => hmem j (List.mem_cons_of_mem i hj))]
    rw [List.append_assoc, List.singleton_append, ← List.replicate_succ,
      List.length_cons]

/-- The full backtest walk on a constant positive series: no trades, flat
equity curve. -/
theorem backtestWalk_const (n : ℕ) (c : ℚ) (invest : ℚ) (hc : 0 < c) :
    backtestWalk (List.replicate n c) invest =
      .ok ⟨invest, 0, [], List.replicate (n - 60) invest⟩ := by
  unfold backtestWalk
  rw [List.length_replicate]
  rw [walkAux_const n c hc (List.range' 60 (n - 60)) invest 0 [] []
    (fun i hi => by
      have := List.mem_range'_1.mp hi
      omega)]
  simp

/-- Drawdowns over a flat equity curve at the initial peak are all 0. -/
theorem drawdownsAux_const (p : ℚ) (hp : p ≠ 0) :
    ∀ m : ℕ, drawdownsAux p (List.replicate m p) = some (List.replicate m 0)
  | 0 => rfl
  | m + 1 => by
    rw [List.replicate_succ, drawdownsAux]
    rw [if_neg (lt_irrefl p)]
    rw [show cdiv (p - p) p = some 0 by rw [cdiv, if_neg hp]; simp]
    rw [drawdownsAux_const p hp m]
    simp [List.replicate_succ]

theorem listMax_replicate_zero : ∀ m : ℕ, listMax (List.replicate m (0 : ℚ)) = 0
  | 0 => rfl
  | m + 1 => by
    rw [List.replicate_succ]
    have : ∀ k : ℕ, List.foldl max (0 : ℚ) (List.replicate k 0) = 0 := by
      intro k
      induction k with
      | zero => rfl
      | succ k ih => rw [List.replicate_succ, List.foldl_cons, max_self]; exact ih
    simp [listMax, this m]

theorem getLastD_replicate (a : ℚ) : ∀ m : ℕ,
    (List.replicate m a).getLast?.getD a = a
  | 0 => rfl
  | 1 => rfl
  | m + 2 => by
    rw [List.replicate_succ, List.replicate_succ, List.getLast?_cons_cons,
      ← List.replicate_succ]
    exact getLastD_replicate a (m + 1)

/-- Metrics of a tradeless flat walk: zero return, zero drawdown, zero
trades. -/
theorem backtestMetrics_const (invest : ℚ) (hinv : invest ≠ 0) (m : ℕ) :
    backtestMetrics invest [] (List.replicate m invest) =
      .ok ⟨invest, invest, 0, 0, 0, 0, 0, [], List.replicate m invest⟩ := by
  unfold backtestMetrics
  rw [getLastD_replicate invest m]
  dsimp only
  rw [show cdiv (invest - invest) invest = some 0 by rw [cdiv, if_neg hinv]; simp]
  dsimp only
  rw [drawdownsAux_const invest hinv m]
  dsimp only
  rcases m with _ | m'
  · rw [show tradeReturns [] = .ok ([] : List ℚ) from rfl]
    dsimp only
    norm_num
  · rw [List.replicate_succ, if_neg (by simp), ← List.replicate_succ,
      listMax_replicate_zero (m' + 1)]
    rw [show tradeReturns [] = .ok ([] : List ℚ) from rfl]
    dsimp only
    norm_num

/-- C7 (amended): a backtest over any window of a constant positive price
series with a nonzero initial investment completes with zero trades and
zero total return. -/
theorem backtest_flat_series (n : ℕ) (c : ℚ) (startIdx endIdx : ℕ) (invest : ℚ)
    (hc : 0 < c) (hinv : invest ≠ 0) :
    ∃ r, backtest (List.replicate n c) startIdx endIdx invest = .ok r ∧
      r.num_trades = 0 ∧ r.total_return = 0 := by
  unfold backtest
  dsimp only
  rw [List.drop_replicate, List.take_replicate]
  rw [backtestWalk_const _ c invest hc]
  dsimp only
  rw [backtestMetrics_const invest hinv _]
  exact ⟨_, rfl, rfl, rfl⟩

/-- Witness for C7's amended statement on 61 days of price 100 with
investment 10000. -/
theorem backtest_flat_series_witness :
    (0 : ℚ) < 100 ∧ (10000 : ℚ) ≠ 0 ∧
    ∃ r, backtest (List.replicate 61 (100 : ℚ)) 0 60 10000 = .ok r ∧
      r.num_trades = 0 ∧ r.total_return = 0 :=
  ⟨by norm_num, by norm_num,
   backtest_flat_series 61 100 0 60 10000 (by norm_num) (by norm_num)⟩

/-- A backtest of a constant positive series with zero initial investment
faults: the total-return computation divides by the initial investment. -/
theorem backtest_const_zero_invest (n : ℕ) (c : ℚ) (startIdx endIdx : ℕ)
    (hc : 0 < c) :
    backtest (List.replicate n c) startIdx endIdx 0 = .error () := by
  unfold backtest
  dsimp only
  rw [List.drop_replicate, List.take_replicate]
  rw [backtestWalk_const _ c 0 hc]
  dsimp only
  unfold backtestMetrics
  rw [getLastD_replicate 0 _]
  dsimp only
  rw [show cdiv ((0 : ℚ) - 0) 0 = none by rw [cdiv, if_pos rfl]]

/-- Counterexample to C7 as stated: with initial investment 0 (an
"initial investment" the claim quantifies over) the backtest on 61 days
of price 100 faults with a division by zero instead of returning
`num_trades = 0`, `total_return = 0`. -/
theorem backtest_flat_zero_investment :
    backtest (List.replicate 61 (100 : ℚ)) 0 60 0 = .error () :=
  backtest_const_zero_invest 61 100 0 60 (by norm_num)

/-- Unfolding equation of the day-state scan. -/
theorem walkStatesAux_cons (bd : List ℚ) (i : ℕ) (is : List ℕ) (cash shares : ℚ) :
    walkStatesAux bd (i :: is) cash shares =
      (let pred := ((predictNextMove (bd.take (i + 1))).toOption).getD undetPred
       let price := bd.getD i 0
       if pred.prediction = "Trendfortsetzung erwartet" ∧ pred.confidence > 1 / 2 ∧
           shares = 0 ∧ cash > 0 then
         ⟨price, 0, cash / price, 0 + cash / price * price⟩ ::
           walkStatesAux bd is 0 (cash / price)
       else if pred.prediction = "Korrektur erwartet" ∧ pred.confidence > 1 / 2 ∧
           shares > 0 then
         ⟨price, shares * price, 0, shares * price + 0 * price⟩ ::
           walkStatesAux bd is (shares * price) 0
       else
         ⟨price, cash, shares, cash + shares * price⟩ ::
           walkStatesAux bd is cash shares) := rfl

/-- A buy day of the walk. -/
theorem btStep_buy (st : WalkState) (pred : Prediction) (price : ℚ)
    (h1 : pred.prediction = "Trendfortsetzung erwartet" ∧ pred.confidence > 1 / 2)
    (h2 : st.shares = 0 ∧ st.cash > 0) (hp : price ≠ 0) :
    btStep st pred price = .ok ⟨0, st.cash / price,
      st.trades ++ [⟨"buy", price, st.cash / price, st.cash / price * price⟩],
      st.curve ++ [0 + st.cash / price * price]⟩ := by
  rw [btStep, if_pos h1, if_pos h2, cdiv, if_neg hp]

/-- A trend-continuation day with no buy (already long, or no cash). -/
theorem btStep_nobuy (st : WalkState) (pred : Prediction) (price : ℚ)
    (h1 : pred.prediction = "Trendfortsetzung erwartet" ∧ pred.confidence > 1 / 2)
    (h2 : ¬(st.shares = 0 ∧ st.cash > 0)) :
    btStep st pred price =
      .ok { st with curve := st.curve ++ [st.cash + st.shares * price] } := by
  rw [btStep, if_pos h1, if_neg h2]

/-- A sell day of the walk. -/
theorem btStep_sell (st : WalkState) (pred : Prediction) (price : ℚ)
    (h1 : ¬(pred.prediction = "Trendfortsetzung erwartet" ∧ pred.confidence > 1 / 2))
    (h3 : pred.prediction = "Korrektur erwartet" ∧ pred.confidence > 1 / 2)
    (h4 : st.shares > 0) :
    btStep st pred price = .ok ⟨st.shares * price, 0,
      st.trades ++ [⟨"sell", price, st.shares, st.shares * price⟩],
      st.curve ++ [st.shares * price + 0 * price]⟩ := by
  rw [btStep, if_neg h1, if_pos h3, if_pos h4]

/-- A correction-expected day with no position to sell. -/
theorem btStep_nosell (st : WalkState) (pred : Prediction) (price : ℚ)
    (h1 : ¬(pred.prediction = "Trendfortsetzung erwartet" ∧ pred.confidence > 1 / 2))
    (h3 : pred.prediction = "Korrektur erwartet" ∧ pred.confidence > 1 / 2)
    (h4 : ¬ st.shares > 0) :
    btStep st pred price =
      .ok { st with curve := st.curve ++ [st.cash + st.shares * price] } := by
  rw [btStep, if_neg h1, if_pos h3, if_neg h4]

/-- A day with neither signal. -/
theorem btStep_idle (st : WalkState) (pred : Prediction) (price : ℚ)
    (h1 : ¬(pred.prediction = "Trendfortsetzung erwartet" ∧ pred.confidence > 1 / 2))
    (h3 : ¬(pred.prediction = "Korrektur erwartet" ∧ pred.confidence > 1 / 2)) :
    btStep st pred price =
      .ok { st with curve := st.curve ++ [st.cash + st.shares * price] } := by
  rw [btStep, if_neg h1, if_neg h3]

/-- Master invariant of the backtest walk: it never faults on positive
prices, its equity curve is the scan's equity column, logged buys have
positive value, and every day state is long-only and unleveraged. -/
theorem walkAux_states (bd : List ℚ) : ∀ (is : List ℕ) (cash shares : ℚ)
    (tr : List Trade) (cv : List ℚ),
    (∀ i ∈ is, (∃ p, predictNextMove (bd.take (i + 1)) = .ok p) ∧ 0 < bd.getD i 0) →
    0 ≤ cash → 0 ≤ shares → (cash = 0 ∨ shares = 0) →
    (∀ t ∈ tr, t.action = "buy" → 0 < t.value) →
    ∃ st', walkAux bd is ⟨cash, shares, tr, cv⟩ = .ok st' ∧
      st'.curve = cv ++ (walkStatesAux bd is cash shares).map (·.equity) ∧
      (∀ t ∈ st'.trades, t.action = "buy" → 0 < t.value) ∧
      ∀ ds ∈ walkStatesAux bd is cash shares,
        0 ≤ ds.cash ∧ 0 ≤ ds.shares ∧ (ds.cash = 0 ∨ ds.shares = 0) ∧
        ds.equity = ds.cash + ds.shares * ds.price
  | [], cash, shares, tr, cv, _, hc, hs, hcs, htr =>
    ⟨⟨cash, shares, tr, cv⟩, rfl, by simp [walkStatesAux], htr,
      by intro ds hds; simp [walkStatesAux] at hds⟩
  | i :: is, cash, shares, tr, cv, hmem, hc, hs, hcs, htr => by
    obtain ⟨⟨pred, hpred⟩, hpos⟩ := hmem i (List.mem_cons_self i is)
    have hmem' : ∀ j ∈ is,
        (∃ p, predictNextMove (bd.take (j + 1)) = .ok p) ∧ 0 < bd.getD j 0 :=
      fun j hj => hmem j (List.mem_cons_of_mem i hj)
    rw [walkAux_cons, hpred]
    dsimp only
    rw [walkStatesAux_cons, hpred]
    dsimp only
    by_cases hT : pred.prediction = "Trendfortsetzung erwartet" ∧ pred.confidence > 1 / 2
    · by_cases hB : shares = 0 ∧ cash > 0
      · -- buy day
        rw [btStep_buy ⟨cash, shares, tr, cv⟩ pred (bd.getD i 0) hT hB hpos.ne']
        dsimp only
        rw [if_pos ⟨hT.1, hT.2, hB.1, hB.2⟩]
        obtain ⟨st', hw, hcv, htr', hds⟩ := walkAux_states bd is 0 (cash / bd.getD i 0)
          (tr ++ [⟨"buy", bd.getD i 0, cash / bd.getD i 0,
            cash / bd.getD i 0 * bd.getD i 0⟩])
          (cv ++ [0 + cash / bd.getD i 0 * bd.getD i 0])
          hmem' le_rfl (le_of_lt (div_pos hB.2 hpos)) (Or.inl rfl)
          (fun t ht => by
            rcases List.mem_append.mp ht with ht | ht
            · exact htr t ht
            · rw [List.mem_singleton] at ht; subst ht
              intro _
              dsimp only
              rw [div_mul_cancel₀ _ hpos.ne']
              exact hB.2)
        refine ⟨st', hw, ?_, htr', ?_⟩
        · rw [hcv]
          simp [List.append_assoc]
        · intro ds hds'
          rcases List.mem_cons.mp hds' with rfl | hds'
          · exact ⟨le_rfl, le_of_lt (div_pos hB.2 hpos), Or.inl rfl, rfl⟩
          · exact hds ds hds'
      · -- trend-continuation day without a buy
        rw [btStep_nobuy ⟨cash, shares, tr, cv⟩ pred (bd.getD i 0) hT hB]
        dsimp only
        rw [if_neg (by rintro ⟨_, _, hc0, hcp⟩; exact hB ⟨hc0, hcp⟩),
          if_neg (by rintro ⟨hk, _⟩; exact absurd (hT.1.symm.trans hk) (by decide))]
        obtain ⟨st', hw, hcv, htr', hds⟩ := walkAux_states bd is cash shares tr
          (cv ++ [cash + shares * bd.getD i 0]) hmem' hc hs hcs htr
        refine ⟨st', hw, ?_, htr', ?_⟩
        · rw [hcv]
          simp [List.append_assoc]
        · intro ds hds'
          rcases List.mem_cons.mp hds' with rfl | hds'
          · exact ⟨hc, hs, hcs, rfl⟩
          · exact hds ds hds'
    · by_cases hK : pred.prediction = "Korrektur erwartet" ∧ pred.confidence > 1 / 2
      · by_cases hS : shares > 0
        · -- sell day
          rw [btStep_sell ⟨cash, shares, tr, cv⟩ pred (bd.getD i 0) hT hK hS]
          dsimp only
          rw [if_neg (by rintro ⟨ht1, ht2, _, _⟩; exact hT ⟨ht1, ht2⟩),
            if_pos ⟨hK.1, hK.2, hS⟩]
          obtain ⟨st', hw, hcv, htr', hds⟩ := walkAux_states bd is
            (shares * bd.getD i 0) 0
            (tr ++ [⟨"sell", bd.getD i 0, shares, shares * bd.getD i 0⟩])
            (cv ++ [shares * bd.getD i 0 + 0 * bd.getD i 0])
            hmem' (mul_nonneg hs hpos.le) le_rfl (Or.inr rfl)
            (fun t ht => by
              rcases List.mem_append.mp ht with ht | ht
              · exact htr t ht
              · rw [List.mem_singleton] at ht; subst ht
                intro hact
                dsimp only at hact
                exact absurd hact (by decide))
          refine ⟨st', hw, ?_, htr', ?_⟩
          · rw [hcv]
            simp [List.append_assoc]
          · intro ds hds'
            rcases List.mem_cons.mp hds' with rfl | hds'
            · exact ⟨mul_nonneg hs hpos.le, le_rfl, Or.inr rfl, rfl⟩
            · exact hds ds hds'
        · -- correction day without a position
          rw [btStep_nosell ⟨cash, shares, tr, cv⟩ pred (bd.getD i 0) hT hK hS]
          dsimp only
          rw [if_neg (by rintro ⟨ht1, ht2, _, _⟩; exact hT ⟨ht1, ht2⟩),
            if_neg (by rintro ⟨_, _, hsp⟩; exact hS hsp)]
          obtain ⟨st', hw, hcv, htr', hds⟩ := walkAux_states bd is cash shares tr
            (cv ++ [cash + shares * bd.getD i 0]) hmem' hc hs hcs htr
          refine ⟨st', hw, ?_, htr', ?_⟩
          · rw [hcv]
            simp [List.append_assoc]
          · intro ds hds'
            rcases List.mem_cons.mp hds' with rfl | hds'
            · exact ⟨hc, hs, hcs, rfl⟩
            · exact hds ds hds'
      · -- idle day
        rw [btStep_idle ⟨cash, shares, tr, cv⟩ pred (bd.getD i 0) hT hK]
        dsimp only
        rw [if_neg (by rintro ⟨ht1, ht2, _, _⟩; exact hT ⟨ht1, ht2⟩),
          if_neg (by rintro ⟨hk1, hk2, _⟩; exact hK ⟨hk1, hk2⟩)]
        obtain ⟨st', hw, hcv, htr', hds⟩ := walkAux_states bd is cash shares tr
          (cv ++ [cash + shares * bd.getD i 0]) hmem' hc hs hcs htr
        refine ⟨st', hw, ?_, htr', ?_⟩
        · rw [hcv]
          simp [List.append_assoc]
        · intro ds hds'
          rcases List.mem_cons.mp hds' with rfl | hds'
          · exact ⟨hc, hs, hcs, rfl⟩
          · exact hds ds hds'

/-- C10: with a non-negative initial investment and positive day prices,
every day of the backtest walk satisfies the long-only state invariant:
cash ≥ 0, shares ≥ 0, at most one of them nonzero, and the recorded
equity equals `cash + shares · price` for that day's price. -/
theorem backtest_long_only_invariant (prices : List ℚ) (startIdx endIdx : ℕ)
    (invest : ℚ) (hinv : 0 ≤ invest) (hp : ∀ p ∈ prices, 0 < p) :
    ∃ st, backtestWalk ((prices.drop startIdx).take (endIdx + 1 - startIdx)) invest =
        .ok st ∧
      st.curve = (backtestDayStates prices startIdx endIdx invest).map (·.equity) ∧
      ∀ ds ∈ backtestDayStates prices startIdx endIdx invest,
        0 ≤ ds.cash ∧ 0 ≤ ds.shares ∧ (ds.cash = 0 ∨ ds.shares = 0) ∧
        ds.equity = ds.cash + ds.shares * ds.price := by
  have hmem : ∀ i ∈ List.range' 60
      (((prices.drop startIdx).take (endIdx + 1 - startIdx)).length - 60),
      (∃ p, predictNextMove
        (((prices.drop startIdx).take (endIdx + 1 - startIdx)).take (i + 1)) = .ok p) ∧
      0 < ((prices.drop startIdx).take (endIdx + 1 - startIdx)).getD i 0 := by
    intro i hi
    obtain ⟨h60, hlt⟩ := List.mem_range'_1.mp hi
    have hilt : i < ((prices.drop startIdx).take (endIdx + 1 - startIdx)).length := by
      omega
    constructor
    · apply predictNextMove_isOk
      rw [List.length_take]
      omega
    · rw [List.getD_eq_getElem?_getD, List.getElem?_eq_getElem hilt, Option.getD_some]
      exact hp _ (List.mem_of_mem_drop (List.mem_of_mem_take (List.getElem_mem hilt)))
  obtain ⟨st', hw, hcv, _, hds⟩ := walkAux_states
    ((prices.drop startIdx).take (endIdx + 1 - startIdx))
    (List.range' 60 (((prices.drop startIdx).take (endIdx + 1 - startIdx)).length - 60))
    invest 0 [] [] hmem hinv le_rfl (Or.inr rfl)
    (fun t ht => absurd ht (List.not_mem_nil t))
  refine ⟨st', hw, ?_, ?_⟩
  · rw [hcv]
    simp [backtestDayStates]
  · intro ds hds'
    exact hds ds hds'

/-- Witness for C10 on 61 days of price 100 with investment 10000. -/
theorem backtest_long_only_invariant_witness :
    (0 : ℚ) ≤ 10000 ∧ (∀ p ∈ List.replicate 61 (100 : ℚ), 0 < p) ∧
    ∃ st, backtestWalk (((List.replicate 61 (100 : ℚ)).drop 0).take (60 + 1 - 0)) 10000 =
        .ok st ∧
      st.curve = (backtestDayStates (List.replicate 61 (100 : ℚ)) 0 60 10000).map (·.equity) ∧
      ∀ ds ∈ backtestDayStates (List.replicate 61 (100 : ℚ)) 0 60 10000,
        0 ≤ ds.cash ∧ 0 ≤ ds.shares ∧ (ds.cash = 0 ∨ ds.shares = 0) ∧
        ds.equity = ds.cash + ds.shares * ds.price :=
  ⟨by norm_num,
   fun p hp => by rw [List.eq_of_mem_replicate hp]; norm_num,
   backtest_long_only_invariant (List.replicate 61 (100 : ℚ)) 0 60 10000 (by norm_num)
     (fun p hp => by rw [List.eq_of_mem_replicate hp]; norm_num)⟩

/-- The drawdown pass never faults when the initial peak is positive. -/
theorem drawdownsAux_isOk (peak : ℚ) (hp : 0 < peak) :
    ∀ curve : List ℚ, ∃ l, drawdownsAux peak curve = some l
  | [] => ⟨[], rfl⟩
  | e :: rest => by
    have hp' : 0 < (if e > peak then e else peak) := by
      split_ifs with h
      · exact hp.trans h
      · exact hp
    obtain ⟨l, hl⟩ := drawdownsAux_isOk (if e > peak then e else peak) hp' rest
    rw [drawdownsAux]
    rw [show cdiv ((if e > peak then e else peak) - e) (if e > peak then e else peak) =
      some (((if e > peak then e else peak) - e) / (if e > peak then e else peak)) by
        rw [cdiv, if_neg hp'.ne']]
    rw [hl]
    exact ⟨_, rfl⟩

/-- Unfolding equation for the pairwise trade-return pass. -/
theorem tradeReturns_cons2 (t1 t2 : Trade) (rest : List Trade) :
    tradeReturns (t1 :: t2 :: rest) =
      (if t1.action = "buy" ∧ t2.action = "sell" then
        match cdiv (t2.value - t1.value) t1.value with
        | none => .error ()
        | some r =>
          match tradeReturns rest with
          | .error e => .error e
          | .ok l => .ok (r * 100 :: l)
      else
        match tradeReturns rest with
        | .error e => .error e
        | .ok l => .ok l) := rfl

/-- The per-trade-return pass never faults when all logged buys have
positive value. -/
theorem tradeReturns_isOk : ∀ tr : List Trade,
    (∀ t ∈ tr, t.action = "buy" → 0 < t.value) → ∃ l, tradeReturns tr = .ok l
  | [], _ => ⟨[], rfl⟩
  | [_], _ => ⟨[], rfl⟩
  | t1 :: t2 :: rest, h => by
    obtain ⟨l, hl⟩ := tradeReturns_isOk rest
      (fun t ht => h t (List.mem_cons_of_mem t1 (List.mem_cons_of_mem t2 ht)))
    by_cases hb : t1.action = "buy" ∧ t2.action = "sell"
    · have hval : 0 < t1.value := h t1 (List.mem_cons_self t1 _) hb.1
      rw [tradeReturns_cons2, if_pos hb,
        show cdiv (t2.value - t1.value) t1.value =
          some ((t2.value - t1.value) / t1.value) by rw [cdiv, if_neg hval.ne'],
        hl]
      exact ⟨_, rfl⟩
    · refine ⟨l, ?_⟩
      rw [tradeReturns_cons2, if_neg hb, hl]

/-- The metric computations never fault when the initial investment is
positive and all logged buys have positive value. -/
theorem backtestMetrics_isOk (invest : ℚ) (trades : List Trade) (curve : List ℚ)
    (hinv : 0 < invest)
    (htr : ∀ t ∈ trades, t.action = "buy" → 0 < t.value) :
    ∃ r, backtestMetrics invest trades curve = .ok r := by
  obtain ⟨dds, hdds⟩ := drawdownsAux_isOk invest hinv curve
  obtain ⟨trs, htrs⟩ := tradeReturns_isOk trades htr
  unfold backtestMetrics
  dsimp only
  rw [show cdiv (curve.getLast?.getD invest - invest) invest =
    some ((curve.getLast?.getD invest - invest) / invest) by rw [cdiv, if_neg hinv.ne'],
    hdds, htrs]
  exact ⟨_, rfl⟩

/-- The recommendation engine never faults when the current price is
nonzero: every division in it is by the current price or behind the
`risk > 0` guard. -/
theorem getTradeRecommendations_isOk (cw : Option CurrentWave) (pred : Prediction)
    (price rt : ℚ) (hp : price ≠ 0) :
    ∃ r, getTradeRecommendations cw pred price rt = .ok r := by
  unfold getTradeRecommendations
  by_cases h1 : pred.confidence < 1 / 2
  · rw [if_pos h1]; exact ⟨_, rfl⟩
  rw [if_neg h1]
  by_cases h2 : pred.prediction = "Trendfortsetzung erwartet"
  · rw [if_pos h2]
    rcases cw with _ | w
    · exact ⟨_, rfl⟩
    dsimp only
    by_cases hemp : w.points = []
    · rw [if_pos hemp]; exact ⟨_, rfl⟩
    rw [if_neg hemp]
    by_cases hlen : 2 ≤ w.points.length
    · rw [if_pos hlen]
      by_cases hup : (w.points.map (·.2)).getD ((w.points.map (·.2)).length - 2) 0 <
          (w.points.map (·.2)).getLastD 0
      · rw [if_pos hup]
        rcases htgt : pred.target with _ | ⟨t1, t2⟩
        · exact ⟨_, rfl⟩
        · simp only [cdiv, if_neg hp]
          exact ⟨_, rfl⟩
      · rw [if_neg hup]
        by_cases hdown : (w.points.map (·.2)).getLastD 0 <
            (w.points.map (·.2)).getD ((w.points.map (·.2)).length - 2) 0
        · rw [if_pos hdown]
          rcases htgt : pred.target with _ | ⟨t1, t2⟩
          · exact ⟨_, rfl⟩
          · simp only [cdiv, if_neg hp]
            exact ⟨_, rfl⟩
        · rw [if_neg hdown]; exact ⟨_, rfl⟩
    · rw [if_neg hlen]; exact ⟨_, rfl⟩
  rw [if_neg h2]
  by_cases h3 : pred.prediction = "Korrektur erwartet"
  · rw [if_pos h3]
    rcases cw with _ | w
    · exact ⟨_, rfl⟩
    dsimp only
    by_cases hemp : w.points = []
    · rw [if_pos hemp]; exact ⟨_, rfl⟩
    rw [if_neg hemp]
    by_cases hlen : 2 ≤ w.points.length
    · rw [if_pos hlen]
      by_cases hup : (w.points.map (·.2)).getD ((w.points.map (·.2)).length - 2) 0 <
          (w.points.map (·.2)).getLastD 0
      · rw [if_pos hup]
        rcases htgt : pred.target with _ | ⟨t1, t2⟩
        · exact ⟨_, rfl⟩
        · simp only [cdiv, if_neg hp]
          exact ⟨_, rfl⟩
      · rw [if_neg hup]
        by_cases hdown : (w.points.map (·.2)).getLastD 0 <
            (w.points.map (·.2)).getD ((w.points.map (·.2)).length - 2) 0
        · rw [if_pos hdown]
          rcases htgt : pred.target with _ | ⟨t1, t2⟩
          · exact ⟨_, rfl⟩
          · simp only [cdiv, if_neg hp]
            exact ⟨_, rfl⟩
        · rw [if_neg hdown]; exact ⟨_, rfl⟩
    · rw [if_neg hlen]; exact ⟨_, rfl⟩
  rw [if_neg h3]
  by_cases h4 : pred.prediction = "Welle könnte abgeschlossen sein"
  · rw [if_pos h4]
    rcases cw with _ | w
    · exact ⟨_, rfl⟩
    dsimp only
    by_cases hemp : w.points = []
    · rw [if_pos hemp]; exact ⟨_, rfl⟩
    rw [if_neg hemp]
    by_cases hlen : 2 ≤ w.points.length
    · rw [if_pos hlen]
      by_cases hup : (w.points.map (·.2)).getD ((w.points.map (·.2)).length - 2) 0 <
          (w.points.map (·.2)).getLastD 0
      · rw [if_pos hup]; exact ⟨_, rfl⟩
      · rw [if_neg hup]; exact ⟨_, rfl⟩
    · rw [if_neg hlen]; exact ⟨_, rfl⟩
  · rw [if_neg h4]; exact ⟨_, rfl⟩

theorem backtestWalk_eq (bd : List ℚ) (invest : ℚ) :
    backtestWalk bd invest =
      walkAux bd (List.range' 60 (bd.length - 60)) ⟨invest, 0, [], []⟩ := rfl

/-- C3 (amended): the division guards are partial.  When the initial
investment is positive, all day prices are positive and the current price
is nonzero, no division by zero occurs anywhere in `backtest` or
`get_trade_recommendations` (the empty-trade-list guards and the
`risk > 0` guard cover the remaining ratios); a zero initial investment,
by contrast, faults the backtest (see the counterexample). -/
theorem division_guards_coverage (prices : List ℚ) (startIdx endIdx : ℕ) (invest : ℚ)
    (hinv : 0 < invest) (hp : ∀ p ∈ prices, 0 < p) :
    (∃ r, backtest prices startIdx endIdx invest = .ok r) ∧
    (∀ (cw : Option CurrentWave) (pred : Prediction) (price rt : ℚ), price ≠ 0 →
      ∃ rec, getTradeRecommendations cw pred price rt = .ok rec) := by
  constructor
  · have hmem : ∀ i ∈ List.range' 60
        (((prices.drop startIdx).take (endIdx + 1 - startIdx)).length - 60),
        (∃ p, predictNextMove
          (((prices.drop startIdx).take (endIdx + 1 - startIdx)).take (i + 1)) = .ok p) ∧
        0 < ((prices.drop startIdx).take (endIdx + 1 - startIdx)).getD i 0 := by
      intro i hi
      obtain ⟨h60, hlt⟩ := List.mem_range'_1.mp hi
      have hilt : i < ((prices.drop startIdx).take (endIdx + 1 - startIdx)).length := by
        omega
      constructor
      · apply predictNextMove_isOk
        rw [List.length_take]
        omega
      · rw [List.getD_eq_getElem?_getD, List.getElem?_eq_getElem hilt, Option.getD_some]
        exact hp _ (List.mem_of_mem_drop (List.mem_of_mem_take (List.getElem_mem hilt)))
    obtain ⟨st', hw, _, htr', _⟩ := walkAux_states
      ((prices.drop startIdx).take (endIdx + 1 - startIdx))
      (List.range' 60 (((prices.drop startIdx).take (endIdx + 1 - startIdx)).length - 60))
      invest 0 [] [] hmem hinv.le le_rfl (Or.inr rfl)
      (fun t ht => absurd ht (List.not_mem_nil t))
    obtain ⟨r, hr⟩ := backtestMetrics_isOk invest st'.trades st'.curve hinv htr'
    unfold backtest
    dsimp only
    rw [backtestWalk_eq, hw]
    dsimp only
    rw [hr]
    exact ⟨r, rfl⟩
  · intro cw pred price rt hprice
    exact getTradeRecommendations_isOk cw pred price rt hprice

/-- Witness for C3's amended statement: a positive-price, positive-
investment backtest completes, and a nonzero-price recommendation call
completes. -/
theorem division_guards_coverage_witness :
    (∃ r, backtest (List.replicate 61 (100 : ℚ)) 0 60 10000 = .ok r) ∧
    (∃ rec, getTradeRecommendations none undetPred 100 (1 / 50) = .ok rec) :=
  ⟨(division_guards_coverage (List.replicate 61 (100 : ℚ)) 0 60 10000 (by norm_num)
      (fun p hp => by rw [List.eq_of_mem_replicate hp]; norm_num)).1,
   (division_guards_coverage (List.replicate 61 (100 : ℚ)) 0 60 10000 (by norm_num)
      (fun p hp => by rw [List.eq_of_mem_replicate hp]; norm_num)).2
     none undetPred 100 (1 / 50) (by norm_num)⟩

/-- Counterexample to C3 as stated: with an initial investment of 0 — an
input the claim explicitly covers — the total-return ratio
`(final - initial) / initial` hits a zero denominator and the backtest
faults instead of substituting 0 or omitting the ratio. -/
theorem backtest_division_by_zero :
    backtest (List.replicate 62 (100 : ℚ)) 0 61 0 = .error () :=
  backtest_const_zero_invest 62 100 0 61 (by norm_num)
